import Mathlib

/-!
Verification of the firebbase_admin_ql core against its specification.

The development shallowly embeds the repository's TypeScript core:

* `PgFormData.values` (src/utility.ts) — the parameter marshaler;
* `PgDatabase.runStoredMethod` (src/config/postgres.config.ts) — the
  stored-procedure invoker;
* `FirebaseModel.findWhere`, `FirebaseModel.save`, `FirebaseModel.doBackup`
  (services/firestore.db.ts) — the document-store adapter and backup
  reconciler;
* `PgBaseModel.call` (src/services/postgres.db.ts) — the orchestrator;
* `chainMiddlewares` (src/middleware/firebase.ts) — the guard pipeline.

JavaScript values are modelled by the mutual inductive `JsVal`; the external
stores (Firestore, Postgres) are modelled as explicit state threaded through
the operations, with a ghost operation log recording which store operations
were issued.  Promise-based control flow is single-threaded in Node, so the
asynchronous code is embedded as sequential state passing; the one place
where promise-settlement semantics is observable (`chainMiddlewares`) is
modelled by an explicit `PResult` that distinguishes a promise that never
settles.
-/

namespace Fqa

/-! ### JavaScript values -/

mutual

/-- A JavaScript value as the repository manipulates them: `undefined`,
`null`, booleans, (integer) numbers, strings, arrays and plain objects.
Objects and arrays use the bespoke mutual list types `JsFields` / `JsItems`
so that all recursions stay structural. -/
inductive JsVal where
  | vUndefined
  | vNull
  | vBool (b : Bool)
  | vNum (n : Int)
  | vStr (s : String)
  | vArr (elems : JsItems)
  | vObj (fields : JsFields)
  deriving DecidableEq

/-- A list of array elements. -/
inductive JsItems where
  | nil
  | cons (v : JsVal) (tl : JsItems)
  deriving DecidableEq

/-- An ordered list of object fields (JS objects preserve insertion order;
well-formed objects have no duplicate keys). -/
inductive JsFields where
  | nil
  | cons (k : String) (v : JsVal) (tl : JsFields)
  deriving DecidableEq

end

/-- Result of the JS `typeof` operator on a modelled value. -/
def jsTypeof : JsVal → String
  | .vUndefined => "undefined"
  | .vNull => "object"
  | .vBool _ => "boolean"
  | .vNum _ => "number"
  | .vStr _ => "string"
  | .vArr _ => "object"
  | .vObj _ => "object"

/-- Look up an object field by key (first occurrence). -/
def lookupF : JsFields → String → Option JsVal
  | .nil, _ => none
  | .cons k v tl, key => if k = key then some v else lookupF tl key

/-- Remove every field named `key` (models JS `delete obj[key]`). -/
def eraseF : JsFields → String → JsFields
  | .nil, _ => .nil
  | .cons k v tl, key => if k = key then eraseF tl key else .cons k v (eraseF tl key)

/-- Set a field, overwriting in place if the key is present (keeping its
position, as JS property assignment and object spread do) and appending
otherwise. -/
def setF : JsFields → String → JsVal → JsFields
  | .nil, key, w => .cons key w .nil
  | .cons k v tl, key, w => if k = key then .cons k w tl else .cons k v (setF tl key w)

/-- JS property read `base[key]`.  Reading a property of `undefined` or
`null` throws a `TypeError` (modelled as `.error ()`); reading a missing
property of an object yields `undefined`; property reads on primitives and
arrays are not used with meaningful keys by this code and yield `undefined`. -/
def jsMember : JsVal → String → Except Unit JsVal
  | .vUndefined, _ => .error ()
  | .vNull, _ => .error ()
  | .vObj fs, key => .ok ((lookupF fs key).getD .vUndefined)
  | _, _ => .ok .vUndefined

/-! ### JSON serialization (JSON.stringify as used by the marshaler)

`JSON.stringify` is the platform serializer the marshaler calls on
structured values.  The model covers the value forms representable by
`JsVal`: object fields whose value is `undefined` are dropped, `undefined`
array elements serialize as `null`, strings escape `"` and `\`
(the only escapes the repository's data can produce in this model), and
numbers are integers printed in decimal. -/

/-- The decimal digit character for `d % 10`-style values (`d ≤ 9`). -/
def digitChar : Nat → Char
  | 0 => '0'
  | 1 => '1'
  | 2 => '2'
  | 3 => '3'
  | 4 => '4'
  | 5 => '5'
  | 6 => '6'
  | 7 => '7'
  | 8 => '8'
  | _ => '9'

/-- Little-endian decimal digits of `n`, with fuel (`fuel ≥ n` suffices);
`[]` for `0`. Structural on the fuel so that it evaluates by `decide`. -/
def natDigitsAux : Nat → Nat → List Char
  | _, 0 => []
  | 0, _ + 1 => []
  | fuel + 1, n + 1 => digitChar ((n + 1) % 10) :: natDigitsAux fuel ((n + 1) / 10)

/-- Big-endian decimal digits of `n` (with `0 ↦ "0"`). -/
def natToDigits (n : Nat) : List Char :=
  if n = 0 then ['0'] else (natDigitsAux n n).reverse

/-- Decimal rendering of a natural number. -/
def natStr (n : Nat) : String :=
  ⟨natToDigits n⟩

/-- Decimal rendering of an integer, as JS renders integral numbers. -/
def emitInt (n : Int) : List Char :=
  if n < 0 then '-' :: natToDigits n.natAbs else natToDigits n.toNat

/-- JSON string escaping of one character: `"` and `\` get a backslash. -/
def escapeChar (c : Char) : List Char :=
  if c = '"' ∨ c = '\\' then ['\\', c] else [c]

/-- JSON string escaping of a character sequence. -/
def escapeStr : List Char → List Char
  | [] => []
  | c :: cs => escapeChar c ++ escapeStr cs

mutual

/-- Characters of the JSON serialization of a value (`JSON.stringify`).
`undefined` is rendered as `null`, which matches JS inside arrays (the one
place this model feeds `undefined` to the serializer; top-level
`JSON.stringify(undefined)` is never reached by the marshaler, which only
serializes non-null `typeof object` values). -/
def jsonEmit : JsVal → List Char
  | .vUndefined => ['n', 'u', 'l', 'l']
  | .vNull => ['n', 'u', 'l', 'l']
  | .vBool true => ['t', 'r', 'u', 'e']
  | .vBool false => ['f', 'a', 'l', 's', 'e']
  | .vNum n => emitInt n
  | .vStr s => '"' :: (escapeStr s.data ++ ['"'])
  | .vArr es => '[' :: (jsonEmitItems es ++ [']'])
  | .vObj fs => '{' :: (jsonEmitFields fs false ++ ['}'])

/-- Serialized array elements, comma separated. -/
def jsonEmitItems : JsItems → List Char
  | .nil => []
  | .cons v .nil => jsonEmit v
  | .cons v (.cons w tl) => jsonEmit v ++ ',' :: jsonEmitItems (.cons w tl)

/-- Serialized object members, comma separated.  JS `JSON.stringify` drops
members whose value is `undefined`; the `started` flag records whether a
member has already been emitted, so that commas separate exactly the kept
members. -/
def jsonEmitFields : JsFields → Bool → List Char
  | .nil, _ => []
  | .cons k v tl, started =>
      match v with
      | .vUndefined => jsonEmitFields tl started
      | _ =>
          (if started then [','] else []) ++
            ('"' :: (escapeStr k.data ++ '"' :: ':' :: jsonEmit v)) ++
            jsonEmitFields tl true

end

/-- The JSON serialization of a value as a string. -/
def jsonStringify (v : JsVal) : String :=
  ⟨jsonEmit v⟩

mutual

/-- Whether a value contains no `undefined` anywhere (at the top, in an
array element, or in an object member, recursively). -/
def noUndef : JsVal → Bool
  | .vUndefined => false
  | .vNull => true
  | .vBool _ => true
  | .vNum _ => true
  | .vStr _ => true
  | .vArr es => noUndefItems es
  | .vObj fs => noUndefFields fs

/-- No element of the array contains `undefined`. -/
def noUndefItems : JsItems → Bool
  | .nil => true
  | .cons v tl => noUndef v && noUndefItems tl

/-- No member value contains `undefined`. -/
def noUndefFields : JsFields → Bool
  | .nil => true
  | .cons _ v tl => noUndef v && noUndefFields tl

end

/-! ### JSON parsing (JSON.parse on the canonical output above)

A recursive-descent parser over the character list, structural on a fuel
argument so that it is executable by `decide`.  It accepts exactly the
whitespace-free form `JSON.stringify` produces, which is all the round-trip
property needs. -/

/-- Parse a JSON string body after the opening quote: a backslash escape
yields the escaped character, a plain quote ends the string. -/
def pStr : List Char → Option (List Char × List Char)
  | [] => none
  | '"' :: rest => some ([], rest)
  | '\\' :: c :: rest => (pStr rest).map fun sr => (c :: sr.1, sr.2)
  | c :: rest => (pStr rest).map fun sr => (c :: sr.1, sr.2)

/-- Numeric value of a decimal digit character. -/
def digVal (c : Char) : Nat :=
  c.toNat - 48

/-- Accumulate a decimal number left to right. -/
def parseNatAcc (cs : List Char) : Nat :=
  cs.foldl (fun a c => 10 * a + digVal c) 0

/-- Parse a nonempty run of decimal digits into a natural number. -/
def pNatNum (cs : List Char) : Option (Nat × List Char) :=
  let digs := cs.takeWhile Char.isDigit
  let rest := cs.dropWhile Char.isDigit
  if digs = [] then none else some (parseNatAcc digs, rest)

mutual

/-- Parse one JSON value. -/
def pVal : Nat → List Char → Option (JsVal × List Char)
  | 0, _ => none
  | fuel + 1, cs =>
    match cs with
    | 'n' :: 'u' :: 'l' :: 'l' :: rest => some (.vNull, rest)
    | 't' :: 'r' :: 'u' :: 'e' :: rest => some (.vBool true, rest)
    | 'f' :: 'a' :: 'l' :: 's' :: 'e' :: rest => some (.vBool false, rest)
    | '"' :: rest => (pStr rest).map fun sr => (.vStr ⟨sr.1⟩, sr.2)
    | '[' :: ']' :: rest => some (.vArr .nil, rest)
    | '[' :: rest => (pItems fuel rest).map fun er => (.vArr er.1, er.2)
    | '{' :: '}' :: rest => some (.vObj .nil, rest)
    | '{' :: rest => (pFields fuel rest).map fun fr => (.vObj fr.1, fr.2)
    | '-' :: rest => (pNatNum rest).map fun nr => (.vNum (-(nr.1 : Int)), nr.2)
    | _ => (pNatNum cs).map fun nr => (.vNum (nr.1 : Int), nr.2)

/-- Parse the elements of a nonempty array, up to and through `]`. -/
def pItems : Nat → List Char → Option (JsItems × List Char)
  | 0, _ => none
  | fuel + 1, cs =>
    match pVal fuel cs with
    | none => none
    | some (v, rest) =>
      match rest with
      | ',' :: r2 => (pItems fuel r2).map fun er => (.cons v er.1, er.2)
      | ']' :: r2 => some (.cons v .nil, r2)
      | _ => none

/-- Parse the members of a nonempty object, up to and through the brace. -/
def pFields : Nat → List Char → Option (JsFields × List Char)
  | 0, _ => none
  | fuel + 1, cs =>
    match cs with
    | '"' :: rest =>
      match pStr rest with
      | none => none
      | some (k, r1) =>
        match r1 with
        | ':' :: r2 =>
          match pVal fuel r2 with
          | none => none
          | some (v, r3) =>
            match r3 with
            | ',' :: r4 => (pFields fuel r4).map fun fr => (.cons ⟨k⟩ v fr.1, fr.2)
            | '}' :: r4 => some (.cons ⟨k⟩ v .nil, r4)
            | _ => none
        | _ => none
    | _ => none

end

/-- Parse a full JSON document (the whole string must be consumed). -/
def jsonParse (s : String) : Option JsVal :=
  match pVal (s.data.length + 1) s.data with
  | some (v, []) => some v
  | _ => none

/-! ### Deep equality of JS values

Deep (structural) equality as `assert.deepStrictEqual` compares plain data:
same type, same numeric/string/boolean value, arrays pointwise, objects by
own-key sets and recursively equal member values (order-insensitive; a key
explicitly bound to `undefined` is an own key and must be present on both
sides). -/

/-- Number of fields. -/
def lenF : JsFields → Nat
  | .nil => 0
  | .cons _ _ tl => lenF tl + 1

mutual

/-- Deep equality of two JS values. -/
def jsDeepEqual : JsVal → JsVal → Bool
  | .vUndefined, w => w = .vUndefined
  | .vNull, w => w = .vNull
  | .vBool a, w => w = .vBool a
  | .vNum a, w => w = .vNum a
  | .vStr a, w => w = .vStr a
  | .vArr es, w =>
      match w with
      | .vArr ws => jsDeepEqualItems es ws
      | _ => false
  | .vObj fs, w =>
      match w with
      | .vObj ws => lenF fs = lenF ws && jsDeepEqualFields fs ws
      | _ => false

/-- Pointwise deep equality of array elements. -/
def jsDeepEqualItems : JsItems → JsItems → Bool
  | .nil, ws => ws = .nil
  | .cons v tl, ws =>
      match ws with
      | .nil => false
      | .cons w wtl => jsDeepEqual v w && jsDeepEqualItems tl wtl

/-- Every own key of the first object is an own key of the second with a
deeply equal value (with equal key counts this makes the key sets equal for
duplicate-free objects). -/
def jsDeepEqualFields : JsFields → JsFields → Bool
  | .nil, _ => true
  | .cons k v tl, ws =>
      (match lookupF ws k with
       | some w => jsDeepEqual v w
       | none => false) && jsDeepEqualFields tl ws

end

/-! ### The parameter marshaler (`PgFormData.values`, src/utility.ts) -/

/-- One marshaled parameter, from the looked-up value of one field
(`undefined` models an absent field, as JS property lookup does):
transliterates the body of the `values` getter —
`undefined ↦ null`; non-null `typeof === 'object'` values are
`JSON.stringify`ed; everything else passes through. -/
def marshalField (value : JsVal) : JsVal :=
  if value = .vUndefined then .vNull
  else if value ≠ .vNull ∧ jsTypeof value = "object" then .vStr (jsonStringify value)
  else value

/-- The `values` getter of `PgFormData`: `this.order.map(key => ...)` over
`this.data[key]`. -/
def pgValues (data : JsFields) (order : List String) : List JsVal :=
  order.map fun key => marshalField ((lookupF data key).getD .vUndefined)

/-! ### The document store (Firestore) and `FirebaseModel`

`FirebaseModel` is bound to one collection; a collection is modelled as a
list of documents in store-native order, a counter generating fresh
document ids for `collection.add`, a failure-injection flag for the
external store's writes, and a ghost log recording the operations issued
(the log lets "no lookup was performed" be stated). -/

/-- A where clause (`whereClause` in interfaces.ts): field key, operator
tag and comparison value.  `doBackup` only ever builds the equality
operator. -/
structure WhereC where
  key : String
  op : String
  value : JsVal
  deriving DecidableEq

/-- Ghost record of one store operation. -/
inductive StoreOp where
  | opQuery (wh : List WhereC)
  | opAdd (id : String)
  | opSet (id : String)
  deriving DecidableEq

/-- A stored document. -/
structure FsDoc where
  id : String
  fields : JsFields
  deriving DecidableEq

/-- The state of one Firestore collection. -/
structure FsStore where
  docs : List FsDoc
  nextId : Nat
  failWrites : Bool
  log : List StoreOp
  deriving DecidableEq

/-- The empty collection. -/
def emptyStore : FsStore :=
  ⟨[], 0, false, []⟩

/-- Whether a document satisfies one where clause.  Only the equality
operator is given semantics (the sole operator this core builds): the
document must have the field with exactly that value; a document missing
the field matches nothing. -/
def clauseMatches (fields : JsFields) (c : WhereC) : Bool :=
  c.op = "==" && lookupF fields c.key = some c.value

/-- Whether a document satisfies all clauses (logical AND). -/
def docMatches (wh : List WhereC) (d : FsDoc) : Bool :=
  wh.all (clauseMatches d.fields)

/-- `FirebaseModel.findWhere`: apply every clause to the query, run it, and
return each matching document's data with `reference: document.id` spread
on top (overwriting any stored field of that name). -/
def fsFindWhere (wh : List WhereC) (st : FsStore) : List JsFields × FsStore :=
  (((st.docs.filter (docMatches wh)).map fun d => setF d.fields "reference" (.vStr d.id)),
   ⟨st.docs, st.nextId, st.failWrites, st.log ++ [.opQuery wh]⟩)

/-- Replace the fields of the first document with the given id, or append a
new document when the id is absent (`collection.doc(id).set` creates the
document if needed). -/
def setDoc : List FsDoc → String → JsFields → List FsDoc
  | [], i, fs => [⟨i, fs⟩]
  | d :: tl, i, fs => if d.id = i then ⟨i, fs⟩ :: tl else d :: setDoc tl i fs

/-- Result of `save` / `doBackup` (`Promise<string | boolean>` in the
source: the written document's id on success, `false` on failure). -/
inductive BackupResult where
  | bid (id : String)
  | bfalse
  deriving DecidableEq

/-- `FirebaseModel.save`.  The source first executes
`delete (data as any).reference` outside its try/catch — a thrown
`TypeError` when `data` is `undefined`/`null` (modelled as `.error ()`)
escapes `save`; on an object it strips the `reference` field from the
caller's object itself.  Then, inside try/catch: with no id the document is
added under a fresh id, with an id it is `set` (full overwrite); a store
write failure, or data the store rejects (non-objects), yields `false`.
The returned `JsVal` is the caller's `data` argument after the call (the
delete mutates it in place). -/
def fsSave (data : JsVal) (id : Option String) (st : FsStore) :
    Except Unit (BackupResult × FsStore × JsVal) :=
  match data with
  | .vUndefined => .error ()
  | .vNull => .error ()
  | .vObj fs =>
    let fs' := eraseF fs "reference"
    if st.failWrites then
      .ok (.bfalse, st, .vObj fs')
    else
      match id with
      | none =>
        let newId := "doc" ++ natStr st.nextId
        .ok (.bid newId,
             ⟨st.docs ++ [⟨newId, fs'⟩], st.nextId + 1, st.failWrites, st.log ++ [.opAdd newId]⟩,
             .vObj fs')
      | some i =>
        .ok (.bid i,
             ⟨setDoc st.docs i fs', st.nextId, st.failWrites, st.log ++ [.opSet i]⟩,
             .vObj fs')
  | other => .ok (.bfalse, st, other)

/-- One equality clause of `doBackup`'s lookup:
`{key, operator: "==", value: returnData[dbLabel][key]}`; either property
read can throw. -/
def clauseFor (returnData : JsVal) (dbLabel key : String) : Except Unit WhereC := do
  let d ← jsMember returnData dbLabel
  let v ← jsMember d key
  .ok ⟨key, "==", v⟩

/-- Clause building over an array of keys (`whereKey.forEach`). -/
def clausesFor : List String → JsVal → String → Except Unit (List WhereC)
  | [], _, _ => .ok []
  | k :: tl, returnData, dbLabel => do
    let c ← clauseFor returnData dbLabel k
    let cs ← clausesFor tl returnData dbLabel
    .ok (c :: cs)

/-- The clause list `doBackup` builds: a single clause for a string
`whereKey`, one clause per key (in order, first throw aborts) for an array. -/
def buildClauses (wk : String ⊕ List String) (returnData : JsVal) (dbLabel : String) :
    Except Unit (List WhereC) :=
  match wk with
  | .inl k => (clauseFor returnData dbLabel k).map fun c => [c]
  | .inr ks => clausesFor ks returnData dbLabel

/-- The trailing step shared by every path of `doBackup`:
`return await this.save((returnData as any)[dbLabel], ref)` together with
`doBackup`'s own catch (which converts any throw — from the property read
or from `save`'s delete — into `false`).  Returns the result, the store
after the call, and the caller's `returnData` after the call (the in-place
mutation of `returnData[dbLabel]` written back). -/
def doSaveStep (returnData : JsVal) (dbLabel : String) (ref : Option String) (st : FsStore) :
    BackupResult × FsStore × JsVal :=
  match jsMember returnData dbLabel with
  | .error () => (.bfalse, st, returnData)
  | .ok d =>
    match fsSave d ref st with
    | .error () => (.bfalse, st, returnData)
    | .ok (r, st', d') =>
      match returnData with
      | .vObj fs => (r, st', .vObj (setF fs dbLabel d'))
      | other => (r, st', other)

/-- `FirebaseModel.doBackup`.  Resolves the target reference — the explicit
`reference` if given; else, with a `whereKey`, the first `findWhere` match's
`reference` field when the match list is nonempty; else undefined — and
saves `returnData[dbLabel]` under it.  All throws are caught and yield
`false`, with the store as it was at the throw point. -/
def doBackup (whereKey : Option (String ⊕ List String)) (returnData : JsVal)
    (dbLabel : String) (reference : Option String) (st : FsStore) :
    BackupResult × FsStore × JsVal :=
  match reference with
  | some r => doSaveStep returnData dbLabel (some r) st
  | none =>
    match whereKey with
    | none => doSaveStep returnData dbLabel none st
    | some wk =>
      match buildClauses wk returnData dbLabel with
      | .error () => (.bfalse, st, returnData)
      | .ok wh =>
        let qr := fsFindWhere wh st
        let ref : Option String :=
          match qr.1 with
          | [] => none
          | rec0 :: _ =>
            match lookupF rec0 "reference" with
            | some (.vStr s) => some s
            | _ => none
        doSaveStep returnData dbLabel ref qr.2

/-! ### The procedure invoker (`PgDatabase.runStoredMethod`) and
`PgBaseModel.call` -/

/-- The uniform result envelope (`Message` in utility.ts / interfaces.ts).
`data` is `vUndefined` when absent. -/
structure Message where
  status : String
  message : String
  data : JsVal
  deriving DecidableEq

/-- The relational engine as a black box: the catalog of (schema, name)
pairs that `procedureExists` reports, and the effect of executing a stored
procedure (total here: execution failures of an existing procedure throw a
separate "Unable to execute transaction" error in the source, a path none
of the claims exercise). -/
structure PgDb where
  procs : List (String × String)
  exec : String → List JsVal → Message

/-- The `CALL "schema"."method"($1,…,$n)` text `runStoredMethod` builds. -/
def callQuery (schema method : String) (params : List JsVal) : String :=
  "CALL \"" ++ schema ++ "\".\"" ++ method ++ "\"(" ++
    String.intercalate "," ((List.range params.length).map fun i => "$" ++ natStr (i + 1)) ++ ")"

/-- `PgDatabase.runStoredMethod`: checks the catalog first and throws
`Stored procedure <schema>.<method> does not exist.` when the check fails
(modelled as `.error`), otherwise executes the CALL.  The second component
is the ghost list of CALL statements actually executed against the
connection. -/
def runStoredMethod (db : PgDb) (schema method : String) (params : List JsVal) :
    Except String Message × List String :=
  if (schema, method) ∈ db.procs then
    (.ok (db.exec method params), [callQuery schema method params])
  else
    (.error ("Stored procedure " ++ schema ++ "." ++ method ++ " does not exist."), [])

/-- One backup specification (`PgBackup` in postgres.db.ts). -/
structure PgBackup where
  backupDb : String
  whereKeys : Option (String ⊕ List String)
  dbLabel : String
  firestorReference : Option String
  deriving DecidableEq

/-- The Firestore instance: a map from collection name to collection state
(`new FirebaseModel(backupDb, firestoreDB)` selects the collection). -/
structure FsWorld where
  colls : List (String × FsStore)
  deriving DecidableEq

/-- Generic association-list lookup. -/
def aLookup {α : Type} : List (String × α) → String → Option α
  | [], _ => none
  | (k, v) :: tl, key => if k = key then some v else aLookup tl key

/-- Generic association-list update (replace in place or append). -/
def aSet {α : Type} : List (String × α) → String → α → List (String × α)
  | [], key, w => [(key, w)]
  | (k, v) :: tl, key, w => if k = key then (key, w) :: tl else (k, v) :: aSet tl key w

/-- The state of a named collection (empty if never touched). -/
def getColl (w : FsWorld) (name : String) : FsStore :=
  (aLookup w.colls name).getD emptyStore

/-- Write back the state of a named collection. -/
def setColl (w : FsWorld) (name : String) (st : FsStore) : FsWorld :=
  ⟨aSet w.colls name st⟩

/-- Run the configured backups over the procedure's `data`.  The source
dispatches them with `Promise.all(backups.map(...))`; Node's event loop is
single threaded and the specs' operations commute only through the store,
so the model linearizes them left to right.  Each backup runs
`doBackup` on its own collection; `doBackup` catches every throw, so no
spec can abort the others.  Returns the world, the (possibly mutated)
`data`, and the ghost list of per-spec outcomes (the source discards
them). -/
def runBackups : List PgBackup → JsVal → FsWorld → FsWorld × JsVal × List BackupResult
  | [], d, w => (w, d, [])
  | b :: tl, d, w =>
    let st := getColl w b.backupDb
    let r := doBackup b.whereKeys d b.dbLabel b.firestorReference st
    let w' := setColl w b.backupDb r.2.1
    let rest := runBackups tl r.2.2 w'
    (rest.1, rest.2.1, r.1 :: rest.2.2)

/-- `PgBaseModel.call`: marshal the form data, run the stored procedure,
and if it succeeded and backup specs were supplied, back the result data up
to Firestore; any throw (for this model: the missing-procedure throw) is
caught and converted to the uniform
`{status:'error', message:'Unable to complete process'}` envelope.  Returns
the envelope, the Firestore world after the call, and the ghost backup
outcomes. -/
def pgCall (db : PgDb) (schema procedure : String) (order : List String)
    (formData : JsFields) (backups : Option (List PgBackup)) (w : FsWorld) :
    Message × FsWorld × List BackupResult :=
  let params := pgValues formData order
  match (runStoredMethod db schema procedure params).1 with
  | .error _ => (⟨"error", "Unable to complete process", .vUndefined⟩, w, [])
  | .ok ret =>
    if ret.status = "success" then
      match backups with
      | some bs =>
        let r := runBackups bs ret.data w
        (⟨ret.status, ret.message, r.2.1⟩, r.1, r.2.2)
      | none => (ret, w, [])
    else (ret, w, [])

/-! ### The guard pipeline (`chainMiddlewares`, src/middleware/firebase.ts)

A guard receives `(request, next)` and, like the repository's guards
(`isConfirmedApp`, `isAuthorizedUser`), does exactly one of three things
synchronously: call `next()` once (discarding its promise), throw, or
return without doing either.  `chainMiddlewares` wraps each guard call in
`new Promise((resolve, reject) => { try { mw(request, async () => {
resolve(await execute(index + 1)); }); } catch (e) { reject(e); } })`.

Settlement semantics of that code, which `PResult` captures:
* the guard throws synchronously → the promise rejects with that error;
* the guard never calls `next` → `resolve` is never called: never settles;
* the guard calls `next()` and the rest of the chain succeeds with `v` →
  `resolve(v)`: success;
* the guard calls `next()` and the rest of the chain rejects → the `await`
  inside the `async` continuation throws, rejecting the continuation's own
  promise, which nobody awaits (the guard discarded it); `resolve` is never
  invoked, so the outer promise never settles and the error is lost as an
  unhandled rejection.
With no guards left, the handler's returned (or thrown) outcome is the
chain's outcome. -/

/-- What one guard does with `(request, next)`. -/
inductive GuardB where
  | cont
  | raiseErr (e : String)
  | stall
  deriving DecidableEq

/-- How the promise returned by the pipeline settles. -/
inductive PResult (α : Type) where
  | success (v : α)
  | failure (e : String)
  | pending
  deriving DecidableEq

/-- Settlement of `execute(i)` on the remaining guard list, given the
handler's outcome (`.ok` return value or `.error` thrown error). -/
def executeSem {α : Type} : List GuardB → Except String α → PResult α
  | [], h =>
    match h with
    | .ok v => .success v
    | .error e => .failure e
  | g :: rest, h =>
    match g with
    | .raiseErr e => .failure e
    | .stall => .pending
    | .cont =>
      match executeSem rest h with
      | .success v => .success v
      | .failure _ => .pending
      | .pending => .pending

/-- `chainMiddlewares` is `await execute(0)`. -/
def chainMiddlewaresSem {α : Type} (middlewares : List GuardB) (handler : Except String α) :
    PResult α :=
  executeSem middlewares handler

/-- Events observable while the pipeline runs. -/
inductive PipeEvent where
  | guardInvoked (i : Nat)
  | continuationFired (i : Nat)
  | handlerInvoked
  deriving DecidableEq

/-- The sequence of events `execute(i)` produces: each reached guard is
invoked; if it fires its continuation the chain proceeds; when every guard
has continued, the handler is invoked.  The execution is synchronous and
strictly sequential (Node runs the guard's body to completion; `next`
synchronously enters `execute(i+1)`). -/
def executeTrace : Nat → List GuardB → List PipeEvent
  | _, [] => [.handlerInvoked]
  | i, g :: rest =>
    .guardInvoked i ::
      (match g with
       | .cont => .continuationFired i :: executeTrace (i + 1) rest
       | .raiseErr _ => []
       | .stall => [])

/-- The event trace of a whole pipeline execution. -/
def chainTrace (middlewares : List GuardB) : List PipeEvent :=
  executeTrace 0 middlewares

/-! ## Pipeline lemmas and claims C4, C5 -/

/-- How many times the handler appears in a trace. -/
def countHandler (l : List PipeEvent) : Nat :=
  l.count .handlerInvoked

lemma executeTrace_count_handler (gs : List GuardB) :
    ∀ j, countHandler (executeTrace j gs) ≤ 1 := by
  induction gs with
  | nil => intro j; simp [executeTrace, countHandler]
  | cons g tl ih =>
    intro j
    cases g with
    | cont =>
      simp [executeTrace, countHandler, List.count_cons]
      simpa [countHandler] using ih (j + 1)
    | raiseErr e => simp [executeTrace, countHandler, List.count_cons]
    | stall => simp [executeTrace, countHandler, List.count_cons]

lemma executeTrace_handler_mem (gs : List GuardB) :
    ∀ j, (PipeEvent.handlerInvoked ∈ executeTrace j gs ↔ ∀ g ∈ gs, g = GuardB.cont) := by
  induction gs with
  | nil => intro j; simp [executeTrace]
  | cons g tl ih =>
    intro j
    cases g with
    | cont =>
      simp [executeTrace]
      simpa using ih (j + 1)
    | raiseErr e => simp [executeTrace]
    | stall => simp [executeTrace]

lemma executeTrace_order (gs : List GuardB) :
    ∀ j i, j ≤ i → PipeEvent.guardInvoked (i + 1) ∈ executeTrace j gs →
      ∃ l₁ l₂, executeTrace j gs = l₁ ++ PipeEvent.continuationFired i :: l₂ ∧
        PipeEvent.guardInvoked (i + 1) ∈ l₂ := by
  induction gs with
  | nil =>
    intro j i _ hm
    simp [executeTrace] at hm
  | cons g tl ih =>
    intro j i hj hm
    cases g with
    | raiseErr e => simp [executeTrace] at hm; omega
    | stall => simp [executeTrace] at hm; omega
    | cont =>
      simp only [executeTrace, List.mem_cons] at hm
      rcases hm with h1 | h2 | h3
      · exact absurd h1 (by simp; omega)
      · exact absurd h2 (by simp)
      · by_cases hij : i = j
        · subst hij
          exact ⟨[PipeEvent.guardInvoked i], executeTrace (i + 1) tl, by simp [executeTrace], h3⟩
        · obtain ⟨l₁, l₂, he, hm2⟩ := ih (j + 1) i (by omega) h3
          exact ⟨PipeEvent.guardInvoked j :: PipeEvent.continuationFired j :: l₁, l₂,
            by simp [executeTrace, he], hm2⟩

/-- Claim C4: for every guard list, the pipeline trace invokes the guards
strictly in list order — guard `i+1` is only ever invoked at a point
strictly after guard `i` fired its continuation — the handler is invoked at
most once, and the handler is invoked exactly when every guard invoked its
continuation. -/
theorem claim_C4_pipeline_order_and_single_handler (gs : List GuardB) :
    countHandler (chainTrace gs) ≤ 1 ∧
    (PipeEvent.handlerInvoked ∈ chainTrace gs ↔ ∀ g ∈ gs, g = GuardB.cont) ∧
    (∀ i : Nat, PipeEvent.guardInvoked (i + 1) ∈ chainTrace gs →
      ∃ l₁ l₂, chainTrace gs = l₁ ++ PipeEvent.continuationFired i :: l₂ ∧
        PipeEvent.guardInvoked (i + 1) ∈ l₂) :=
  ⟨executeTrace_count_handler gs 0, executeTrace_handler_mem gs 0,
   fun i hm => executeTrace_order gs 0 i (Nat.zero_le i) hm⟩

/-- Witness for C4 at a concrete two-guard pipeline. -/
theorem claim_C4_pipeline_order_and_single_handler_witness :
    countHandler (chainTrace [GuardB.cont, GuardB.cont]) ≤ 1 ∧
    ∃ l₁ l₂, chainTrace [GuardB.cont, GuardB.cont] =
        l₁ ++ PipeEvent.continuationFired 0 :: l₂ ∧ PipeEvent.guardInvoked 1 ∈ l₂ :=
  ⟨(claim_C4_pipeline_order_and_single_handler [GuardB.cont, GuardB.cont]).1,
   (claim_C4_pipeline_order_and_single_handler [GuardB.cont, GuardB.cont]).2.2 0 (by decide)⟩

/-- Claim C5 (code bug): when a guard after the first raises, no later
guard and not the handler run — but the raised error does not propagate to
the pipeline's caller: the promise returned by `chainMiddlewares` never
settles, because the rejection of `execute(index+1)` happens inside the
`async` continuation whose promise the guard discarded, so `resolve` is
never invoked.  Only a first-guard error is actually delivered.  This
contradicts the function's own documentation ("Throws an error if any
middleware or the handler throws an exception"). -/
theorem claim_C5_later_guard_error_never_settles :
    chainMiddlewaresSem [GuardB.cont, GuardB.raiseErr "boom"] (Except.ok "handled") =
      PResult.pending ∧
    (∀ e : String,
      chainMiddlewaresSem [GuardB.cont, GuardB.raiseErr "boom"] (Except.ok "handled") ≠
        PResult.failure e) ∧
    PipeEvent.handlerInvoked ∉ chainTrace [GuardB.cont, GuardB.raiseErr "boom"] ∧
    PipeEvent.guardInvoked 2 ∉ chainTrace [GuardB.cont, GuardB.raiseErr "boom"] ∧
    chainMiddlewaresSem [GuardB.raiseErr "boom"] (Except.ok "handled") =
      PResult.failure "boom" := by
  refine ⟨rfl, ?_, by decide, by decide, rfl⟩
  intro e h
  simp [chainMiddlewaresSem, executeSem] at h

/-! ## Marshaler claim C7 -/

/-- The form data of the specification's marshaling scenario. -/
def scenarioData : JsFields :=
  .cons "name" (.vStr "John")
    (.cons "age" (.vNum 30)
      (.cons "address" .vUndefined
        (.cons "prefs" (.vObj (.cons "c" (.vStr "blue") .nil)) .nil)))

/-- The parameter order of the specification's marshaling scenario. -/
def scenarioOrder : List String :=
  ["name", "age", "address", "prefs"]

/-- Claim C7: marshaling returns exactly one value per ordered parameter,
positionally aligned; a field absent from the bag or explicitly
`undefined` marshals to `null`; a present non-null structured value
marshals to its JSON serialization; any other present value passes
through unchanged; and the specification's concrete scenario marshals as
stated. -/
theorem claim_C7_marshal_values (data : JsFields) (order : List String) :
    (pgValues data order).length = order.length ∧
    (∀ i : Nat, ∀ k : String, order[i]? = some k →
      (lookupF data k = none → (pgValues data order)[i]? = some JsVal.vNull) ∧
      (lookupF data k = some JsVal.vUndefined →
        (pgValues data order)[i]? = some JsVal.vNull) ∧
      (∀ v : JsVal, lookupF data k = some v → v ≠ JsVal.vNull → jsTypeof v = "object" →
        (pgValues data order)[i]? = some (JsVal.vStr (jsonStringify v))) ∧
      (∀ v : JsVal, lookupF data k = some v → v ≠ JsVal.vUndefined →
        (jsTypeof v = "object" → v = JsVal.vNull) →
        (pgValues data order)[i]? = some v)) ∧
    pgValues scenarioData scenarioOrder =
      [JsVal.vStr "John", JsVal.vNum 30, JsVal.vNull,
       JsVal.vStr "\x7b\"c\":\"blue\"\x7d"] := by
  refine ⟨by simp [pgValues], ?_, by decide⟩
  intro i k hk
  have hmap : (pgValues data order)[i]? =
      (order[i]?).map fun key => marshalField ((lookupF data key).getD .vUndefined) := by
    simp [pgValues]
  refine ⟨?_, ?_, ?_, ?_⟩
  · intro habs
    simp [hmap, hk, habs, marshalField]
  · intro hundef
    simp [hmap, hk, hundef, marshalField]
  · intro v hv hnn hobj
    have : marshalField v = JsVal.vStr (jsonStringify v) := by
      cases v <;> simp_all [marshalField, jsTypeof]
    simp [hmap, hk, hv, this]
  · intro v hv hnu hno
    have : marshalField v = v := by
      cases v <;> simp_all [marshalField, jsTypeof]
    simp [hmap, hk, hv, this]

/-- Witness for C7 at the scenario input, exercising the absent-field,
undefined-field, structured and pass-through cases. -/
theorem claim_C7_marshal_values_witness :
    (pgValues scenarioData scenarioOrder).length = scenarioOrder.length ∧
    (pgValues scenarioData scenarioOrder)[2]? = some JsVal.vNull ∧
    (pgValues scenarioData scenarioOrder)[3]? =
      some (JsVal.vStr (jsonStringify (.vObj (.cons "c" (.vStr "blue") .nil)))) ∧
    (pgValues scenarioData scenarioOrder)[0]? = some (JsVal.vStr "John") :=
  ⟨(claim_C7_marshal_values scenarioData scenarioOrder).1,
   (((claim_C7_marshal_values scenarioData scenarioOrder).2.1 2 "address" (by decide)).2.1)
     (by decide),
   (((claim_C7_marshal_values scenarioData scenarioOrder).2.1 3 "prefs" (by decide)).2.2.1)
     (.vObj (.cons "c" (.vStr "blue") .nil)) (by decide) (by decide) (by decide),
   (((claim_C7_marshal_values scenarioData scenarioOrder).2.1 0 "name" (by decide)).2.2.2)
     (.vStr "John") (by decide) (by decide) (by decide)⟩

/-! ## Field-map and store lemmas -/

lemma jsMember_undef (k : String) : jsMember .vUndefined k = .error () :=
  rfl

lemma jsMember_obj (fs : JsFields) (k : String) :
    jsMember (.vObj fs) k = .ok ((lookupF fs k).getD .vUndefined) :=
  rfl

lemma lookupF_setF_self : ∀ (fs : JsFields) (k : String) (v : JsVal),
    lookupF (setF fs k v) k = some v
  | .nil, k, v => by simp [setF, lookupF]
  | .cons k' v' tl, k, v => by
    by_cases h : k' = k <;> simp [setF, lookupF, h, lookupF_setF_self tl k v]

lemma lookupF_eraseF_self : ∀ (fs : JsFields) (k : String),
    lookupF (eraseF fs k) k = none
  | .nil, k => by simp [eraseF, lookupF]
  | .cons k' v' tl, k => by
    by_cases h : k' = k <;> simp [eraseF, lookupF, h, lookupF_eraseF_self tl k]

lemma lookupF_eraseF_ne : ∀ (fs : JsFields) (k k' : String), k' ≠ k →
    lookupF (eraseF fs k) k' = lookupF fs k'
  | .nil, k, k', _ => by simp [eraseF]
  | .cons k2 v2 tl, k, k', h => by
    by_cases h2 : k2 = k
    · subst h2
      simp [eraseF, lookupF, Ne.symm h, lookupF_eraseF_ne tl k2 k' h]
    · by_cases h3 : k2 = k' <;>
        simp [eraseF, lookupF, h, h2, h3, lookupF_eraseF_ne tl k k' h]

lemma eraseF_eraseF : ∀ (fs : JsFields) (k : String),
    eraseF (eraseF fs k) k = eraseF fs k
  | .nil, k => by simp [eraseF]
  | .cons k' v' tl, k => by
    by_cases h : k' = k <;> simp [eraseF, h, eraseF_eraseF tl k]

lemma clauseFor_obj (rdfs fs : JsFields) (lbl k : String)
    (h : lookupF rdfs lbl = some (.vObj fs)) :
    clauseFor (.vObj rdfs) lbl k = .ok ⟨k, "==", (lookupF fs k).getD .vUndefined⟩ := by
  simp only [clauseFor, jsMember_obj, h, Option.getD_some]
  rfl

lemma clausesFor_obj (ks : List String) (rdfs fs : JsFields) (lbl : String)
    (h : lookupF rdfs lbl = some (.vObj fs)) :
    clausesFor ks (.vObj rdfs) lbl =
      .ok (ks.map fun k => ⟨k, "==", (lookupF fs k).getD .vUndefined⟩) := by
  induction ks with
  | nil => simp [clausesFor]
  | cons k tl ih =>
    simp only [clausesFor, clauseFor_obj rdfs fs lbl k h, ih, List.map_cons]
    rfl

lemma fsSave_obj (fs : JsFields) (id : Option String) (st : FsStore) :
    ∃ r st', fsSave (.vObj fs) id st = .ok (r, st', .vObj (eraseF fs "reference")) := by
  by_cases hw : st.failWrites
  · exact ⟨.bfalse, st, by simp [fsSave, hw]⟩
  · cases id with
    | none =>
      refine ⟨.bid ("doc" ++ natStr st.nextId),
        ⟨st.docs ++ [⟨"doc" ++ natStr st.nextId, eraseF fs "reference"⟩], st.nextId + 1,
         st.failWrites, st.log ++ [.opAdd ("doc" ++ natStr st.nextId)]⟩, ?_⟩
      simp [fsSave, hw]
    | some i =>
      refine ⟨.bid i,
        ⟨setDoc st.docs i (eraseF fs "reference"), st.nextId,
         st.failWrites, st.log ++ [.opSet i]⟩, ?_⟩
      simp [fsSave, hw]

lemma doSaveStep_obj (rdfs fs : JsFields) (lbl : String) (ref : Option String) (st : FsStore)
    (h : lookupF rdfs lbl = some (.vObj fs)) :
    ∃ r st', fsSave (.vObj fs) ref st = .ok (r, st', .vObj (eraseF fs "reference")) ∧
      doSaveStep (.vObj rdfs) lbl ref st =
        (r, st', .vObj (setF rdfs lbl (.vObj (eraseF fs "reference")))) := by
  obtain ⟨r, st', hs⟩ := fsSave_obj fs ref st
  exact ⟨r, st', hs, by simp [doSaveStep, jsMember, h, hs]⟩

/-! ## Orchestration lemmas (`PgBaseModel.call`) -/

lemma runBackups_length (bs : List PgBackup) :
    ∀ d w, (runBackups bs d w).2.2.length = bs.length := by
  induction bs with
  | nil => intro d w; simp [runBackups]
  | cons b tl ih => intro d w; simp [runBackups, ih]

lemma pgCall_success (db : PgDb) (schema method : String) (order : List String)
    (fd : JsFields) (bs : List PgBackup) (w : FsWorld)
    (hp : (schema, method) ∈ db.procs)
    (hs : (db.exec method (pgValues fd order)).status = "success") :
    (pgCall db schema method order fd (some bs) w).1.status = "success" ∧
    (pgCall db schema method order fd (some bs) w).1.message =
      (db.exec method (pgValues fd order)).message ∧
    (pgCall db schema method order fd (some bs) w).2.2.length = bs.length := by
  simp [pgCall, runStoredMethod, hp, hs, runBackups_length]

/-- Claim C9: when the procedure result's data record has no entry under
the spec's label, the backup is skipped as a soft failure: `doBackup`
returns `false` (it does not throw — its return type is total), writes and
creates nothing, leaves the caller's data untouched — and a backup can
never make the overall call fatal: with a successful procedure result,
`PgBaseModel.call` still reports success whatever the backup specs do. -/
theorem claim_C9_missing_label_soft_failure
    (wk : Option (String ⊕ List String)) (rd : JsVal) (lbl : String)
    (ref : Option String) (st : FsStore)
    (h : jsMember rd lbl = .ok .vUndefined) :
    (∃ st' : FsStore, doBackup wk rd lbl ref st = (.bfalse, st', rd) ∧
       st'.docs = st.docs ∧ st'.nextId = st.nextId) ∧
    (∀ (db : PgDb) (schema method : String) (order : List String) (fd : JsFields)
       (bs : List PgBackup) (w : FsWorld),
       (schema, method) ∈ db.procs →
       (db.exec method (pgValues fd order)).status = "success" →
       (pgCall db schema method order fd (some bs) w).1.status = "success") := by
  have hsave : ∀ (ref' : Option String) (st' : FsStore),
      doSaveStep rd lbl ref' st' = (.bfalse, st', rd) := by
    intro ref' st'
    simp [doSaveStep, h, fsSave]
  constructor
  · cases ref with
    | some r => exact ⟨st, by simp [doBackup, hsave], rfl, rfl⟩
    | none =>
      cases wk with
      | none => exact ⟨st, by simp [doBackup, hsave], rfl, rfl⟩
      | some wkv =>
        cases wkv with
        | inl k =>
          refine ⟨st, ?_, rfl, rfl⟩
          have hc : clauseFor rd lbl k = .error () := by
            simp only [clauseFor, h]
            rfl
          simp only [doBackup, buildClauses, hc]
          rfl
        | inr ks =>
          cases ks with
          | nil =>
            refine ⟨(fsFindWhere [] st).2, ?_, rfl, rfl⟩
            simp [doBackup, buildClauses, clausesFor, hsave]
          | cons k tl =>
            refine ⟨st, ?_, rfl, rfl⟩
            have hc : clauseFor rd lbl k = .error () := by
              simp only [clauseFor, h]
              rfl
            have hcs : clausesFor (k :: tl) rd lbl = .error () := by
              simp only [clausesFor, hc]
              rfl
            simp [doBackup, buildClauses, hcs]
  · intro db schema method order fd bs w hp hs
    exact (pgCall_success db schema method order fd bs w hp hs).1

/-- Witness for C9: a concrete spec whose label is absent from the result
data.  The backup yields `false`, the store keeps its single unrelated
document, and a call configured with that spec still reports success. -/
theorem claim_C9_missing_label_soft_failure_witness :
    (∃ st' : FsStore,
       doBackup (some (.inr ["email"]))
         (.vObj (.cons "user" (.vObj .nil) .nil)) "missing" none
         ⟨[⟨"d1", .nil⟩], 4, false, []⟩ =
         (.bfalse, st', .vObj (.cons "user" (.vObj .nil) .nil)) ∧
       st'.docs = [⟨"d1", (.nil : JsFields)⟩] ∧ st'.nextId = 4) ∧
    (pgCall ⟨[("sch", "proc")], fun _ _ => ⟨"success", "ok", .vObj .nil⟩⟩
       "sch" "proc" [] .nil
       (some [⟨"users", some (.inr ["email"]), "missing", none⟩]) ⟨[]⟩).1.status =
      "success" := by
  have h := claim_C9_missing_label_soft_failure (some (.inr ["email"]))
    (.vObj (.cons "user" (.vObj .nil) .nil)) "missing" none
    ⟨[⟨"d1", .nil⟩], 4, false, []⟩ rfl
  exact ⟨h.1,
    h.2 ⟨[("sch", "proc")], fun _ _ => ⟨"success", "ok", .vObj .nil⟩⟩ "sch" "proc" [] .nil
      [⟨"users", some (.inr ["email"]), "missing", none⟩] ⟨[]⟩ (by decide) rfl⟩

/-- Claim C10: `save` deletes the `reference` property from the very object
the caller passed in before writing — the caller's data comes back as the
same object minus every `reference` field, so it no longer contains one —
and the deletion happens even when the subsequent store write fails
(`failWrites = true`: the write is refused, `false` is returned, yet the
data is already stripped).  Through `doBackup`, the caller's
`returnData[dbLabel]` object is likewise stripped on every path. -/
theorem claim_C10_save_strips_reference_in_place (fs : JsFields) (id : Option String)
    (st : FsStore) :
    (∃ r st', fsSave (.vObj fs) id st = .ok (r, st', .vObj (eraseF fs "reference")) ∧
       lookupF (eraseF fs "reference") "reference" = none) ∧
    (st.failWrites = true →
       fsSave (.vObj fs) id st = .ok (.bfalse, st, .vObj (eraseF fs "reference"))) ∧
    (∀ (wk : Option (String ⊕ List String)) (rdfs : JsFields) (lbl : String)
       (ref : Option String) (st2 : FsStore), lookupF rdfs lbl = some (.vObj fs) →
       jsMember (doBackup wk (.vObj rdfs) lbl ref st2).2.2 lbl =
         .ok (.vObj (eraseF fs "reference"))) := by
  refine ⟨?_, ?_, ?_⟩
  · obtain ⟨r, st', hs⟩ := fsSave_obj fs id st
    exact ⟨r, st', hs, lookupF_eraseF_self fs "reference"⟩
  · intro hw
    simp [fsSave, hw]
  · intro wk rdfs lbl ref st2 hlook
    have hstep : ∀ (ref' : Option String) (st' : FsStore),
        jsMember (doSaveStep (.vObj rdfs) lbl ref' st').2.2 lbl =
          .ok (.vObj (eraseF fs "reference")) := by
      intro ref' st'
      obtain ⟨r, st'', hs, he⟩ := doSaveStep_obj rdfs fs lbl ref' st' hlook
      rw [he]
      simp [jsMember_obj, lookupF_setF_self]
    cases ref with
    | some r => simp only [doBackup]; exact hstep (some r) st2
    | none =>
      cases wk with
      | none => simp only [doBackup]; exact hstep none st2
      | some wkv =>
        cases wkv with
        | inl k =>
          simp only [doBackup, buildClauses, clauseFor_obj rdfs fs lbl k hlook, Except.map]
          exact hstep _ _
        | inr ks =>
          simp only [doBackup, buildClauses, clausesFor_obj ks rdfs fs lbl hlook]
          exact hstep _ _

/-- Witness for C10: a concrete object carrying a `reference` field, saved
into a store whose writes fail: the write is refused yet the caller's
object has lost its `reference` field; `doBackup` exhibits the same
mutation through a backup run. -/
theorem claim_C10_save_strips_reference_in_place_witness :
    fsSave (.vObj (.cons "reference" (.vStr "r") (.cons "email" (.vStr "e") .nil))) none
        ⟨[], 0, true, []⟩ =
      .ok (.bfalse, ⟨[], 0, true, []⟩, .vObj (.cons "email" (.vStr "e") .nil)) ∧
    jsMember (doBackup none
        (.vObj (.cons "user"
          (.vObj (.cons "reference" (.vStr "r") (.cons "email" (.vStr "e") .nil))) .nil))
        "user" none ⟨[], 0, false, []⟩).2.2 "user" =
      .ok (.vObj (.cons "email" (.vStr "e") .nil)) := by
  have h := claim_C10_save_strips_reference_in_place
    (.cons "reference" (.vStr "r") (.cons "email" (.vStr "e") .nil)) none ⟨[], 0, true, []⟩
  exact ⟨h.2.1 rfl, h.2.2 none
    (.cons "user" (.vObj (.cons "reference" (.vStr "r") (.cons "email" (.vStr "e") .nil))) .nil)
    "user" none ⟨[], 0, false, []⟩ rfl⟩

/-- Claim C2: when the stored procedure succeeds and backup specs are
supplied, the caller still receives the procedure's success envelope
(status and message of the procedure result), and every spec produces an
outcome — `doBackup` is total (it catches every throw), so no spec's
failure can abort the others or reject the `Promise.all`. -/
theorem claim_C2_backup_failures_not_fatal (db : PgDb) (schema method : String)
    (order : List String) (fd : JsFields) (bs : List PgBackup) (w : FsWorld)
    (hp : (schema, method) ∈ db.procs)
    (hs : (db.exec method (pgValues fd order)).status = "success") :
    (pgCall db schema method order fd (some bs) w).1.status = "success" ∧
    (pgCall db schema method order fd (some bs) w).1.message =
      (db.exec method (pgValues fd order)).message ∧
    (pgCall db schema method order fd (some bs) w).2.2.length = bs.length :=
  pgCall_success db schema method order fd bs w hp hs

/-- Witness for C2: two backup specs, the second of which fails (its label
is absent from the result data); the call still returns the success
envelope and both specs produced an outcome. -/
theorem claim_C2_backup_failures_not_fatal_witness :
    (pgCall ⟨[("sch", "proc")],
        fun _ _ => ⟨"success", "ok",
          .vObj (.cons "user" (.vObj (.cons "email" (.vStr "a@b.com") .nil)) .nil)⟩⟩
      "sch" "proc" [] .nil
      (some [⟨"users", some (.inr ["email"]), "user", none⟩,
             ⟨"users", none, "missing", none⟩]) ⟨[]⟩).1.status = "success" ∧
    (pgCall ⟨[("sch", "proc")],
        fun _ _ => ⟨"success", "ok",
          .vObj (.cons "user" (.vObj (.cons "email" (.vStr "a@b.com") .nil)) .nil)⟩⟩
      "sch" "proc" [] .nil
      (some [⟨"users", some (.inr ["email"]), "user", none⟩,
             ⟨"users", none, "missing", none⟩]) ⟨[]⟩).1.message = "ok" ∧
    (pgCall ⟨[("sch", "proc")],
        fun _ _ => ⟨"success", "ok",
          .vObj (.cons "user" (.vObj (.cons "email" (.vStr "a@b.com") .nil)) .nil)⟩⟩
      "sch" "proc" [] .nil
      (some [⟨"users", some (.inr ["email"]), "user", none⟩,
             ⟨"users", none, "missing", none⟩]) ⟨[]⟩).2.2.length = 2 :=
  claim_C2_backup_failures_not_fatal
    ⟨[("sch", "proc")],
      fun _ _ => ⟨"success", "ok",
        .vObj (.cons "user" (.vObj (.cons "email" (.vStr "a@b.com") .nil)) .nil)⟩⟩
    "sch" "proc" [] .nil
    [⟨"users", some (.inr ["email"]), "user", none⟩, ⟨"users", none, "missing", none⟩]
    ⟨[]⟩ (by decide) rfl

/-! ## Substring containment (for the error-message claims) -/

/-- Whether the first list is a leading segment of the second. -/
def startsWithL : List Char → List Char → Bool
  | [], _ => true
  | _ :: _, [] => false
  | p :: ps, c :: cs => p = c && startsWithL ps cs

/-- Whether `pat` occurs contiguously inside `s`. -/
def containsSub (pat s : List Char) : Bool :=
  (List.range (s.length + 1)).any fun i => startsWithL pat (List.drop i s)

/-- Whether the string `s` contains `pat` as a substring. -/
def strContains (s pat : String) : Bool :=
  containsSub pat.data s.data

lemma startsWithL_self_append (pat rest : List Char) :
    startsWithL pat (pat ++ rest) = true := by
  induction pat with
  | nil => simp [startsWithL]
  | cons p ps ih => simp [startsWithL, ih]

lemma containsSub_of_append (a pat b : List Char) :
    containsSub pat (a ++ pat ++ b) = true := by
  simp only [containsSub, List.any_eq_true, List.mem_range]
  refine ⟨a.length, by simp [List.length_append]; omega, ?_⟩
  rw [List.append_assoc, List.drop_left]
  exact startsWithL_self_append pat b

/-- Claim C6 counterexample: invoking the absent procedure `sch.ghost`
returns the error envelope, but its message is the generic
`Unable to complete process` — it does not contain `does not exist` (that
detail lives only in the error `runStoredMethod` throws, which `call`
swallows). -/
theorem claim_C6_counterexample_generic_message :
    (pgCall ⟨[], fun _ _ => ⟨"success", "", .vUndefined⟩⟩
        "sch" "ghost" [] .nil none ⟨[]⟩).1 =
      ⟨"error", "Unable to complete process", .vUndefined⟩ ∧
    strContains "Unable to complete process" "does not exist" = false := by
  exact ⟨by decide, by decide⟩

/-- Claim C6 (amended): invoking a stored procedure absent from the schema
makes `runStoredMethod` throw an error whose message contains
`does not exist`, immediately and without executing any CALL against the
connection; `PgBaseModel.call` catches that throw and returns the uniform
`{status: "error"}` envelope — with the generic message
`Unable to complete process`, not the `does not exist` detail. -/
theorem claim_C6_amended_missing_procedure (db : PgDb) (schema method : String)
    (params : List JsVal) (order : List String) (fd : JsFields)
    (bk : Option (List PgBackup)) (w : FsWorld)
    (h : (schema, method) ∉ db.procs) :
    (runStoredMethod db schema method params).1 =
      .error ("Stored procedure " ++ schema ++ "." ++ method ++ " does not exist.") ∧
    strContains ("Stored procedure " ++ schema ++ "." ++ method ++ " does not exist.")
      "does not exist" = true ∧
    (runStoredMethod db schema method params).2 = [] ∧
    pgCall db schema method order fd bk w =
      (⟨"error", "Unable to complete process", .vUndefined⟩, w, []) := by
  refine ⟨by simp [runStoredMethod, h], ?_, by simp [runStoredMethod, h],
    by simp [pgCall, runStoredMethod, h]⟩
  have hdata : ("Stored procedure " ++ schema ++ "." ++ method ++ " does not exist.").data =
      (("Stored procedure ").data ++ schema.data ++ (".").data ++ method.data ++ (" ").data) ++
        ("does not exist").data ++ (".").data := by
    simp [String.data_append]
  simp only [strContains, hdata]
  exact containsSub_of_append _ _ _

/-- Witness for C6 (amended) at the concrete absent procedure `sch.ghost`. -/
theorem claim_C6_amended_missing_procedure_witness :
    (runStoredMethod ⟨[], fun _ _ => ⟨"success", "", .vUndefined⟩⟩ "sch" "ghost" []).1 =
      .error "Stored procedure sch.ghost does not exist." ∧
    strContains "Stored procedure sch.ghost does not exist." "does not exist" = true ∧
    (runStoredMethod ⟨[], fun _ _ => ⟨"success", "", .vUndefined⟩⟩ "sch" "ghost" []).2 = [] ∧
    pgCall ⟨[], fun _ _ => ⟨"success", "", .vUndefined⟩⟩ "sch" "ghost" [] .nil none ⟨[]⟩ =
      (⟨"error", "Unable to complete process", .vUndefined⟩, ⟨[]⟩, []) :=
  claim_C6_amended_missing_procedure ⟨[], fun _ _ => ⟨"success", "", .vUndefined⟩⟩
    "sch" "ghost" [] [] .nil none ⟨[]⟩ (by decide)

/-! ## Claim C1: target resolution precedence in `doBackup` -/

/-- Whether a store operation is a query. -/
def isQueryOp : StoreOp → Bool
  | .opQuery _ => true
  | _ => false

/-- The store with one query appended to its ghost log (the only effect a
`findWhere` has on the collection state). -/
def stLogQuery (st : FsStore) (wh : List WhereC) : FsStore :=
  ⟨st.docs, st.nextId, st.failWrites, st.log ++ [.opQuery wh]⟩

lemma doSaveStep_no_query (rd : JsVal) (lbl : String) (ref : Option String) (st : FsStore) :
    ((doSaveStep rd lbl ref st).2.1).log.countP isQueryOp = st.log.countP isQueryOp := by
  rcases hm : jsMember rd lbl with e | d
  · simp [doSaveStep, hm]
  · cases d with
    | vObj fs =>
      by_cases hw : st.failWrites
      · cases rd <;> simp [doSaveStep, hm, fsSave, hw]
      · cases ref <;> cases rd <;>
          simp [doSaveStep, hm, fsSave, hw, List.countP_append, isQueryOp]
    | vUndefined => simp [doSaveStep, hm, fsSave]
    | vNull => simp [doSaveStep, hm, fsSave]
    | vBool b => cases rd <;> simp [doSaveStep, hm, fsSave]
    | vNum n => cases rd <;> simp [doSaveStep, hm, fsSave]
    | vStr s => cases rd <;> simp [doSaveStep, hm, fsSave]
    | vArr es => cases rd <;> simp [doSaveStep, hm, fsSave]

lemma doBackup_match_empty (wkv : String ⊕ List String) (rd : JsVal) (lbl : String)
    (st : FsStore) (wh : List WhereC) (hb : buildClauses wkv rd lbl = .ok wh)
    (hfil : st.docs.filter (docMatches wh) = []) :
    doBackup (some wkv) rd lbl none st = doSaveStep rd lbl none (stLogQuery st wh) := by
  simp [doBackup, hb, fsFindWhere, hfil, stLogQuery]

lemma doBackup_match_first (wkv : String ⊕ List String) (rd : JsVal) (lbl : String)
    (st : FsStore) (wh : List WhereC) (d₀ : FsDoc) (tl : List FsDoc)
    (hb : buildClauses wkv rd lbl = .ok wh)
    (hfil : st.docs.filter (docMatches wh) = d₀ :: tl) :
    doBackup (some wkv) rd lbl none st =
      doSaveStep rd lbl (some d₀.id) (stLogQuery st wh) := by
  simp [doBackup, hb, fsFindWhere, hfil, stLogQuery, lookupF_setF_self]

/-- Claim C1: the backup target is resolved with this precedence: an
explicit `reference` is used directly as the save target and no query is
issued; otherwise with lookup keys the built clauses are run and a
nonempty match list makes the first match's id the target while an empty
match list leaves the target unset (create); with neither, the target is
unset. -/
theorem claim_C1_target_resolution_precedence
    (wk : Option (String ⊕ List String)) (rd : JsVal) (lbl : String) (st : FsStore) :
    (∀ r : String,
       doBackup wk rd lbl (some r) st = doSaveStep rd lbl (some r) st ∧
       ((doBackup wk rd lbl (some r) st).2.1).log.countP isQueryOp =
         st.log.countP isQueryOp) ∧
    (∀ wkv wh, wk = some wkv → buildClauses wkv rd lbl = .ok wh →
       (st.docs.filter (docMatches wh) = [] →
         doBackup wk rd lbl none st = doSaveStep rd lbl none (stLogQuery st wh)) ∧
       (∀ d₀ tl, st.docs.filter (docMatches wh) = d₀ :: tl →
         doBackup wk rd lbl none st = doSaveStep rd lbl (some d₀.id) (stLogQuery st wh))) ∧
    (wk = none → doBackup wk rd lbl none st = doSaveStep rd lbl none st) := by
  refine ⟨?_, ?_, ?_⟩
  · intro r
    refine ⟨rfl, ?_⟩
    have : doBackup wk rd lbl (some r) st = doSaveStep rd lbl (some r) st := rfl
    rw [this]
    exact doSaveStep_no_query rd lbl (some r) st
  · intro wkv wh hwk hb
    subst hwk
    exact ⟨doBackup_match_empty wkv rd lbl st wh hb,
      fun d₀ tl => doBackup_match_first wkv rd lbl st wh d₀ tl hb⟩
  · intro hwk
    subst hwk
    rfl

/-- Witness for C1: a lookup-key spec against a store holding a matching
document resolves the target to that document's id. -/
theorem claim_C1_target_resolution_precedence_witness :
    doBackup (some (.inr ["email"]))
        (.vObj (.cons "user" (.vObj (.cons "email" (.vStr "a@b.com") .nil)) .nil))
        "user" none
        ⟨[⟨"u1", .cons "email" (.vStr "a@b.com") .nil⟩], 0, false, []⟩ =
      doSaveStep
        (.vObj (.cons "user" (.vObj (.cons "email" (.vStr "a@b.com") .nil)) .nil))
        "user" (some "u1")
        (stLogQuery ⟨[⟨"u1", .cons "email" (.vStr "a@b.com") .nil⟩], 0, false, []⟩
          [⟨"email", "==", .vStr "a@b.com"⟩]) :=
  (((claim_C1_target_resolution_precedence (some (.inr ["email"]))
      (.vObj (.cons "user" (.vObj (.cons "email" (.vStr "a@b.com") .nil)) .nil))
      "user"
      ⟨[⟨"u1", .cons "email" (.vStr "a@b.com") .nil⟩], 0, false, []⟩).2.1
    (.inr ["email"]) [⟨"email", "==", .vStr "a@b.com"⟩] rfl rfl).2
    ⟨"u1", .cons "email" (.vStr "a@b.com") .nil⟩ [] (by decide))

/-! ## Claim C3: idempotence of lookup-key reconciliation -/

lemma setDoc_contains (docs : List FsDoc) (i : String) (fs : JsFields) :
    ∃ d ∈ setDoc docs i fs, d.id = i := by
  induction docs with
  | nil => exact ⟨⟨i, fs⟩, by simp [setDoc]⟩
  | cons d tl ih =>
    by_cases h : d.id = i
    · exact ⟨⟨i, fs⟩, by simp [setDoc, h]⟩
    · obtain ⟨e, he, hei⟩ := ih
      exact ⟨e, by simp [setDoc, h, he], hei⟩

lemma setDoc_length_of_mem (docs : List FsDoc) (i : String) (fs : JsFields)
    (h : ∃ d ∈ docs, d.id = i) :
    (setDoc docs i fs).length = docs.length := by
  induction docs with
  | nil => simp at h
  | cons d tl ih =>
    by_cases hd : d.id = i
    · simp [setDoc, hd]
    · simp only [setDoc, hd, if_false, List.length_cons]
      rcases h with ⟨e, he, hei⟩
      rcases List.mem_cons.mp he with he1 | he2
      · subst he1; exact absurd hei hd
      · simp [ih ⟨e, he2, hei⟩]

lemma filter_setDoc_first (p : FsDoc → Bool) :
    ∀ (docs : List FsDoc) (d₀ : FsDoc) (tl : List FsDoc) (fs' : JsFields),
      docs.filter p = d₀ :: tl → p ⟨d₀.id, fs'⟩ = true →
      ∃ tl₂, (setDoc docs d₀.id fs').filter p = ⟨d₀.id, fs'⟩ :: tl₂ := by
  intro docs
  induction docs with
  | nil => intro d₀ tl fs' hfil; simp at hfil
  | cons d rest ih =>
    intro d₀ tl fs' hfil hp
    by_cases hid : d.id = d₀.id
    · refine ⟨rest.filter p, ?_⟩
      simp [setDoc, hid, hp]
    · have hdm : p d = false := by
        by_contra hc
        have : d = d₀ := by
          simp [List.filter_cons, eq_true_of_ne_false hc] at hfil
          exact hfil.1
        exact hid (by rw [this])
      have hfil2 : rest.filter p = d₀ :: tl := by
        simpa [List.filter_cons, hdm] using hfil
      obtain ⟨tl₂, ht⟩ := ih d₀ tl fs' hfil2 hp
      exact ⟨tl₂, by simp [setDoc, hid, List.filter_cons, hdm, ht]⟩

lemma stripped_matches (ks : List String) (dfs : JsFields) (i : String)
    (hks : ∀ k ∈ ks, k ≠ "reference" ∧ (lookupF dfs k).isSome = true) :
    docMatches (ks.map fun k => ⟨k, "==", (lookupF dfs k).getD .vUndefined⟩)
      ⟨i, eraseF dfs "reference"⟩ = true := by
  simp only [docMatches, List.all_eq_true]
  intro c hc
  obtain ⟨k, hk, hck⟩ := List.mem_map.mp hc
  obtain ⟨hne, hsome⟩ := hks k hk
  obtain ⟨v, hv⟩ := Option.isSome_iff_exists.mp hsome
  subst hck
  simp [clauseMatches, lookupF_eraseF_ne dfs "reference" k hne, hv]

/-- Claim C3 counterexample: a lookup key naming the reserved `reference`
field breaks idempotence.  With `lookupKeys = ["reference"]` and result
data `user = {reference: "abc", email: "a@b.com"}`, the first run finds no
match and creates `doc0` — `save` strips `reference` from the caller's data
in the process — so the second run builds its predicate from the now-absent
field, finds nothing, and creates a duplicate `doc1`. -/
theorem claim_C3_counterexample_reference_key :
    (doBackup (some (.inr ["reference"]))
        (.vObj (.cons "user"
          (.vObj (.cons "reference" (.vStr "abc")
            (.cons "email" (.vStr "a@b.com") .nil))) .nil))
        "user" none emptyStore).1 = .bid "doc0" ∧
    (doBackup (some (.inr ["reference"]))
        (doBackup (some (.inr ["reference"]))
          (.vObj (.cons "user"
            (.vObj (.cons "reference" (.vStr "abc")
              (.cons "email" (.vStr "a@b.com") .nil))) .nil))
          "user" none emptyStore).2.2
        "user" none
        (doBackup (some (.inr ["reference"]))
          (.vObj (.cons "user"
            (.vObj (.cons "reference" (.vStr "abc")
              (.cons "email" (.vStr "a@b.com") .nil))) .nil))
          "user" none emptyStore).2.1).1 = .bid "doc1" ∧
    BackupResult.bid "doc0" ≠ BackupResult.bid "doc1" ∧
    (doBackup (some (.inr ["reference"]))
        (doBackup (some (.inr ["reference"]))
          (.vObj (.cons "user"
            (.vObj (.cons "reference" (.vStr "abc")
              (.cons "email" (.vStr "a@b.com") .nil))) .nil))
          "user" none emptyStore).2.2
        "user" none
        (doBackup (some (.inr ["reference"]))
          (.vObj (.cons "user"
            (.vObj (.cons "reference" (.vStr "abc")
              (.cons "email" (.vStr "a@b.com") .nil))) .nil))
          "user" none emptyStore).2.1).2.1.docs.length = 2 := by
  exact ⟨by decide, by decide, by decide, by decide⟩

/-- Claim C3 (amended): reconciliation with a lookup-key spec is
idempotent provided every lookup key is an actual field of
`result.data[resultLabel]` other than the reserved `reference` field (which
`save` strips) and the store's writes succeed: the second run resolves to
the same target document id as the first, and creates no additional
document. -/
theorem claim_C3_amended_lookup_idempotent (ks : List String) (rdfs dfs : JsFields)
    (lbl : String) (st : FsStore)
    (hd : lookupF rdfs lbl = some (.vObj dfs))
    (hks : ∀ k ∈ ks, k ≠ "reference" ∧ (lookupF dfs k).isSome = true)
    (hw : st.failWrites = false) :
    ∃ X : String,
      (doBackup (some (.inr ks)) (.vObj rdfs) lbl none st).1 = .bid X ∧
      (doBackup (some (.inr ks))
         (doBackup (some (.inr ks)) (.vObj rdfs) lbl none st).2.2 lbl none
         (doBackup (some (.inr ks)) (.vObj rdfs) lbl none st).2.1).1 = .bid X ∧
      (doBackup (some (.inr ks))
         (doBackup (some (.inr ks)) (.vObj rdfs) lbl none st).2.2 lbl none
         (doBackup (some (.inr ks)) (.vObj rdfs) lbl none st).2.1).2.1.docs.length =
        (doBackup (some (.inr ks)) (.vObj rdfs) lbl none st).2.1.docs.length := by
  set wh : List WhereC := ks.map fun k => ⟨k, "==", (lookupF dfs k).getD .vUndefined⟩ with hwh
  have hb1 : buildClauses (.inr ks) (.vObj rdfs) lbl = .ok wh :=
    clausesFor_obj ks rdfs dfs lbl hd
  have hd2 : lookupF (setF rdfs lbl (.vObj (eraseF dfs "reference"))) lbl =
      some (.vObj (eraseF dfs "reference")) := lookupF_setF_self rdfs lbl _
  have hlk : ∀ k ∈ ks, lookupF (eraseF dfs "reference") k = lookupF dfs k := by
    intro k hk
    exact lookupF_eraseF_ne dfs "reference" k (hks k hk).1
  have hmapeq : (ks.map fun k =>
      (⟨k, "==", (lookupF (eraseF dfs "reference") k).getD .vUndefined⟩ : WhereC)) = wh := by
    rw [hwh]
    exact List.map_congr_left fun k hk => by rw [hlk k hk]
  have hb2 : buildClauses (.inr ks) (.vObj (setF rdfs lbl (.vObj (eraseF dfs "reference"))))
      lbl = .ok wh :=
    (clausesFor_obj ks _ (eraseF dfs "reference") lbl hd2).trans (by rw [hmapeq])
  rcases hfil : st.docs.filter (docMatches wh) with _ | ⟨d₀, tl⟩
  · -- no match: the first run creates a fresh document
    set X := "doc" ++ natStr st.nextId with hX
    set stB : FsStore := ⟨st.docs ++ [⟨X, eraseF dfs "reference"⟩], st.nextId + 1,
      st.failWrites, (st.log ++ [.opQuery wh]) ++ [.opAdd X]⟩ with hstB
    have h1 : doBackup (some (.inr ks)) (.vObj rdfs) lbl none st =
        (.bid X, stB, .vObj (setF rdfs lbl (.vObj (eraseF dfs "reference")))) := by
      rw [doBackup_match_empty (.inr ks) _ lbl st wh hb1 hfil]
      simp [doSaveStep, jsMember_obj, hd, fsSave, stLogQuery, hw, hstB]
    have hmatch : docMatches wh ⟨X, eraseF dfs "reference"⟩ = true := by
      rw [hwh]; exact stripped_matches ks dfs X hks
    have hfil2 : stB.docs.filter (docMatches wh) = [⟨X, eraseF dfs "reference"⟩] := by
      show (st.docs ++ [(⟨X, eraseF dfs "reference"⟩ : FsDoc)]).filter (docMatches wh) = _
      rw [List.filter_append, hfil]
      simp [hmatch]
    have h2 : doBackup (some (.inr ks))
        (.vObj (setF rdfs lbl (.vObj (eraseF dfs "reference")))) lbl none stB =
        doSaveStep (.vObj (setF rdfs lbl (.vObj (eraseF dfs "reference")))) lbl (some X)
          (stLogQuery stB wh) :=
      doBackup_match_first (.inr ks) _ lbl stB wh ⟨X, eraseF dfs "reference"⟩ [] hb2 hfil2
    refine ⟨X, by rw [h1], ?_, ?_⟩
    · rw [h1, h2]
      simp [doSaveStep, jsMember_obj, hd2, fsSave, stLogQuery, hw, hstB, eraseF_eraseF]
    · rw [h1, h2]
      have hmem : ∃ d ∈ stB.docs, FsDoc.id d = X :=
        ⟨⟨X, eraseF dfs "reference"⟩, by simp [hstB], rfl⟩
      simp [doSaveStep, jsMember_obj, hd2, fsSave, stLogQuery, hw, eraseF_eraseF,
        setDoc_length_of_mem _ _ _ hmem]
  · -- a match: the first run overwrites the first matching document
    set X := d₀.id with hX
    set stA : FsStore := ⟨setDoc st.docs X (eraseF dfs "reference"), st.nextId,
      st.failWrites, (st.log ++ [.opQuery wh]) ++ [.opSet X]⟩ with hstA
    have h1 : doBackup (some (.inr ks)) (.vObj rdfs) lbl none st =
        (.bid X, stA, .vObj (setF rdfs lbl (.vObj (eraseF dfs "reference")))) := by
      rw [doBackup_match_first (.inr ks) _ lbl st wh d₀ tl hb1 hfil]
      simp [doSaveStep, jsMember_obj, hd, fsSave, stLogQuery, hw, hstA]
    have hmatch : docMatches wh ⟨X, eraseF dfs "reference"⟩ = true := by
      rw [hwh]; exact stripped_matches ks dfs X hks
    obtain ⟨tl₂, hfil2⟩ :=
      filter_setDoc_first (docMatches wh) st.docs d₀ tl (eraseF dfs "reference") hfil hmatch
    have h2 : doBackup (some (.inr ks))
        (.vObj (setF rdfs lbl (.vObj (eraseF dfs "reference")))) lbl none stA =
        doSaveStep (.vObj (setF rdfs lbl (.vObj (eraseF dfs "reference")))) lbl (some X)
          (stLogQuery stA wh) :=
      doBackup_match_first (.inr ks) _ lbl stA wh ⟨X, eraseF dfs "reference"⟩ tl₂ hb2 hfil2
    refine ⟨X, by rw [h1], ?_, ?_⟩
    · rw [h1, h2]
      simp [doSaveStep, jsMember_obj, hd2, fsSave, stLogQuery, hw, hstA, eraseF_eraseF]
    · rw [h1, h2]
      obtain ⟨e, he, hei⟩ := setDoc_contains st.docs X (eraseF dfs "reference")
      have hmem : ∃ d ∈ stA.docs, FsDoc.id d = X := ⟨e, by simp [hstA]; exact he, hei⟩
      simp [doSaveStep, jsMember_obj, hd2, fsSave, stLogQuery, hw, eraseF_eraseF,
        setDoc_length_of_mem _ _ _ hmem]

/-- Witness for C3 (amended): the concrete scenario of the specification —
`lookupKeys = ["email"]`, `result.data.user.email = "a@b.com"` — run twice
against an empty store resolves both runs to the same id and leaves one
document. -/
theorem claim_C3_amended_lookup_idempotent_witness :
    ∃ X : String,
      (doBackup (some (.inr ["email"]))
         (.vObj (.cons "user" (.vObj (.cons "email" (.vStr "a@b.com") .nil)) .nil))
         "user" none emptyStore).1 = .bid X ∧
      (doBackup (some (.inr ["email"]))
         (doBackup (some (.inr ["email"]))
           (.vObj (.cons "user" (.vObj (.cons "email" (.vStr "a@b.com") .nil)) .nil))
           "user" none emptyStore).2.2 "user" none
         (doBackup (some (.inr ["email"]))
           (.vObj (.cons "user" (.vObj (.cons "email" (.vStr "a@b.com") .nil)) .nil))
           "user" none emptyStore).2.1).1 = .bid X ∧
      (doBackup (some (.inr ["email"]))
         (doBackup (some (.inr ["email"]))
           (.vObj (.cons "user" (.vObj (.cons "email" (.vStr "a@b.com") .nil)) .nil))
           "user" none emptyStore).2.2 "user" none
         (doBackup (some (.inr ["email"]))
           (.vObj (.cons "user" (.vObj (.cons "email" (.vStr "a@b.com") .nil)) .nil))
           "user" none emptyStore).2.1).2.1.docs.length =
        (doBackup (some (.inr ["email"]))
           (.vObj (.cons "user" (.vObj (.cons "email" (.vStr "a@b.com") .nil)) .nil))
           "user" none emptyStore).2.1.docs.length :=
  claim_C3_amended_lookup_idempotent ["email"]
    (.cons "user" (.vObj (.cons "email" (.vStr "a@b.com") .nil)) .nil)
    (.cons "email" (.vStr "a@b.com") .nil) "user" emptyStore rfl
    (by intro k hk; simp at hk; subst hk; exact ⟨by decide, rfl⟩) rfl

/-! ## Claim C8: serialize/parse round trip

Groundwork: correctness of the decimal printer against the decimal
parser, and of string escaping against string parsing. -/

/-- Value of little-endian digit characters. -/
def vLE : List Char → Nat
  | [] => 0
  | c :: cs => digVal c + 10 * vLE cs

lemma digitChar_isDigit (d : Nat) (h : d < 10) : (digitChar d).isDigit = true := by
  interval_cases d <;> decide

lemma digVal_digitChar (d : Nat) (h : d < 10) : digVal (digitChar d) = d := by
  interval_cases d <;> decide

lemma natDigitsAux_shape (fuel : Nat) :
    ∀ n, ∀ c ∈ natDigitsAux fuel n, ∃ d, d < 10 ∧ c = digitChar d := by
  induction fuel with
  | zero =>
    intro n c hc
    cases n <;> simp [natDigitsAux] at hc
  | succ f ih =>
    intro n c hc
    cases n with
    | zero => simp [natDigitsAux] at hc
    | succ m =>
      simp only [natDigitsAux, List.mem_cons] at hc
      rcases hc with h1 | h2
      · exact ⟨(m + 1) % 10, Nat.mod_lt _ (by omega), h1⟩
      · exact ih ((m + 1) / 10) c h2

lemma vLE_natDigitsAux (fuel : Nat) :
    ∀ n, n ≤ fuel → vLE (natDigitsAux fuel n) = n := by
  induction fuel with
  | zero =>
    intro n hn
    interval_cases n
    simp [natDigitsAux, vLE]
  | succ f ih =>
    intro n hn
    cases n with
    | zero => simp [natDigitsAux, vLE]
    | succ m =>
      have hdiv : (m + 1) / 10 ≤ f := by
        have := Nat.div_lt_self (Nat.succ_pos m) (by omega : 1 < 10)
        omega
      simp only [natDigitsAux, vLE, ih ((m + 1) / 10) hdiv,
        digVal_digitChar ((m + 1) % 10) (Nat.mod_lt _ (by omega))]
      omega

lemma natToDigits_shape (n : Nat) :
    ∃ d ds, d < 10 ∧ natToDigits n = digitChar d :: ds ∧
      (∀ c ∈ natToDigits n, ∃ e, e < 10 ∧ c = digitChar e) := by
  by_cases h : n = 0
  · subst h
    exact ⟨0, [], by omega, by decide, by decide⟩
  · have hne : natDigitsAux n n ≠ [] := by
      obtain ⟨m, rfl⟩ := Nat.exists_eq_succ_of_ne_zero h
      simp [natDigitsAux]
    have hsh := natDigitsAux_shape n n
    have hrev : natToDigits n = (natDigitsAux n n).reverse := by
      simp [natToDigits, h]
    rcases hr : (natDigitsAux n n).reverse with _ | ⟨c, cs⟩
    · exact absurd (by simpa using congrArg List.reverse hr) hne
    · have hcmem : c ∈ natDigitsAux n n := by
        have : c ∈ (natDigitsAux n n).reverse := by simp [hr]
        simpa using this
      obtain ⟨d, hd, hcd⟩ := hsh c hcmem
      refine ⟨d, cs, hd, by rw [hrev, hr, hcd], ?_⟩
      intro e he
      rw [hrev] at he
      exact hsh e (by simpa using he)

lemma parseNat_foldl_rev (l : List Char) :
    ∀ a : Nat, List.foldl (fun a c => 10 * a + digVal c) a l.reverse =
      a * 10 ^ l.length + vLE l := by
  induction l with
  | nil => intro a; simp [vLE]
  | cons c cs ih =>
    intro a
    simp only [List.reverse_cons, List.foldl_append, ih a, List.foldl_cons, List.foldl_nil,
      vLE, List.length_cons]
    ring

lemma parseNatAcc_natToDigits (n : Nat) : parseNatAcc (natToDigits n) = n := by
  by_cases h : n = 0
  · subst h; decide
  · have hrev : natToDigits n = (natDigitsAux n n).reverse := by
      simp [natToDigits, h]
    simp only [parseNatAcc, hrev, parseNat_foldl_rev, Nat.zero_mul, Nat.zero_add]
    exact vLE_natDigitsAux n n (Nat.le_refl n)

/-- Nothing at the head of the remaining input can extend a digit run. -/
def noDigitStartB : List Char → Bool
  | [] => true
  | c :: _ => !c.isDigit

lemma digits_span (ds : List Char) :
    ∀ rest, (∀ c ∈ ds, c.isDigit = true) → noDigitStartB rest = true →
      (ds ++ rest).takeWhile Char.isDigit = ds ∧
        (ds ++ rest).dropWhile Char.isDigit = rest := by
  induction ds with
  | nil =>
    intro rest _ hnds
    cases rest with
    | nil => simp
    | cons c cs =>
      simp only [noDigitStartB, Bool.not_eq_true'] at hnds
      simp [List.takeWhile, List.dropWhile, hnds]
  | cons d ds' ih =>
    intro rest hds hnds
    have hd : d.isDigit = true := hds d (by simp)
    obtain ⟨h1, h2⟩ := ih rest (fun c hc => hds c (by simp [hc])) hnds
    simp [List.takeWhile, List.dropWhile, hd, h1, h2]

lemma pNatNum_emit (n : Nat) (rest : List Char) (hnds : noDigitStartB rest = true) :
    pNatNum (natToDigits n ++ rest) = some (n, rest) := by
  obtain ⟨d, ds, hd, hnd, hall⟩ := natToDigits_shape n
  have hdig : ∀ c ∈ natToDigits n, c.isDigit = true := by
    intro c hc
    obtain ⟨e, he, hce⟩ := hall c hc
    rw [hce]
    exact digitChar_isDigit e he
  obtain ⟨h1, h2⟩ := digits_span (natToDigits n) rest hdig hnds
  have hne : natToDigits n ≠ [] := by rw [hnd]; simp
  simp [pNatNum, h1, h2, hne, parseNatAcc_natToDigits]

lemma pStr_escape (cs : List Char) :
    ∀ rest, pStr (escapeStr cs ++ '"' :: rest) = some (cs, rest) := by
  induction cs with
  | nil => intro rest; rfl
  | cons c cs' ih =>
    intro rest
    by_cases h : c = '"' ∨ c = '\\'
    · have : escapeStr (c :: cs') = '\\' :: c :: escapeStr cs' := by
        simp [escapeStr, escapeChar, h]
      rw [this]
      show pStr ('\\' :: c :: (escapeStr cs' ++ '"' :: rest)) = _
      simp [pStr, ih rest]
    · push_neg at h
      have he : escapeStr (c :: cs') = c :: escapeStr cs' := by
        simp [escapeStr, escapeChar, h.1, h.2]
      rw [he]
      show pStr (c :: (escapeStr cs' ++ '"' :: rest)) = _
      have hp : pStr (c :: (escapeStr cs' ++ '"' :: rest)) =
          (pStr (escapeStr cs' ++ '"' :: rest)).map fun sr => (c :: sr.1, sr.2) := by
        conv_lhs => unfold pStr
        split <;> simp_all
      rw [hp, ih rest]
      rfl

lemma noUndef_ne_undefined (v : JsVal) (h : noUndef v = true) : v ≠ .vUndefined := by
  intro he
  subst he
  simp [noUndef] at h

lemma digitChar_ne_rsqb (d : Nat) (h : d < 10) : digitChar d ≠ ']' := by
  interval_cases d <;> decide

lemma jsonEmit_shape (v : JsVal) : ∃ c cs, jsonEmit v = c :: cs ∧ c ≠ ']' := by
  cases v with
  | vUndefined => exact ⟨'n', _, rfl, by decide⟩
  | vNull => exact ⟨'n', _, rfl, by decide⟩
  | vBool b =>
    cases b with
    | false => exact ⟨'f', _, rfl, by decide⟩
    | true => exact ⟨'t', _, rfl, by decide⟩
  | vNum n =>
    by_cases hn : n < 0
    · exact ⟨'-', natToDigits n.natAbs, by simp [jsonEmit, emitInt, hn], by decide⟩
    · obtain ⟨d, ds, hd, hnd, _⟩ := natToDigits_shape n.toNat
      refine ⟨digitChar d, ds, ?_, digitChar_ne_rsqb d hd⟩
      simp [jsonEmit, emitInt, hn, hnd]
  | vStr s => exact ⟨'"', _, rfl, by decide⟩
  | vArr es => exact ⟨'[', _, rfl, by decide⟩
  | vObj fs => exact ⟨'{', _, rfl, by decide⟩

lemma jsonEmitItems_cons_shape (v : JsVal) (tl : JsItems) :
    ∃ c cs, jsonEmitItems (.cons v tl) = c :: cs ∧ c ≠ ']' := by
  obtain ⟨c, cs, he, hc⟩ := jsonEmit_shape v
  cases tl with
  | nil => exact ⟨c, cs, by simp [jsonEmitItems, he], hc⟩
  | cons w tl2 =>
    exact ⟨c, cs ++ ',' :: jsonEmitItems (.cons w tl2),
      by simp [jsonEmitItems, he], hc⟩

lemma jsonEmitFields_cons_ne (k : String) (v : JsVal) (tl : JsFields) (started : Bool)
    (h : v ≠ .vUndefined) :
    jsonEmitFields (.cons k v tl) started =
      (if started then [','] else []) ++
        ('"' :: (escapeStr k.data ++ '"' :: ':' :: jsonEmit v)) ++
        jsonEmitFields tl true := by
  cases v <;> simp_all [jsonEmitFields]

lemma jsonEmitFields_true_comma (k : String) (v : JsVal) (tl : JsFields)
    (h : v ≠ .vUndefined) :
    jsonEmitFields (.cons k v tl) true = ',' :: jsonEmitFields (.cons k v tl) false := by
  rw [jsonEmitFields_cons_ne k v tl true h, jsonEmitFields_cons_ne k v tl false h]
  simp

lemma pVal_digitChar (f d : Nat) (hd : d < 10) (cs : List Char) :
    pVal (f + 1) (digitChar d :: cs) =
      (pNatNum (digitChar d :: cs)).map fun nr => (.vNum (nr.1 : Int), nr.2) := by
  interval_cases d <;> rfl

lemma pVal_bracket (f : Nat) (c : Char) (cs : List Char) (h : c ≠ ']') :
    pVal (f + 1) ('[' :: c :: cs) = (pItems f (c :: cs)).map fun er => (.vArr er.1, er.2) := by
  unfold pVal
  split <;> simp_all

lemma pVal_brace (f : Nat) (c : Char) (cs : List Char) (h : c ≠ '}') :
    pVal (f + 1) ('{' :: c :: cs) = (pFields f (c :: cs)).map fun fr => (.vObj fr.1, fr.2) := by
  unfold pVal
  split <;> simp_all

lemma noUndefItems_cons (v : JsVal) (tl : JsItems) (h : noUndefItems (.cons v tl) = true) :
    noUndef v = true ∧ noUndefItems tl = true := by
  simpa [noUndefItems, Bool.and_eq_true] using h

lemma noUndefFields_cons (k : String) (v : JsVal) (tl : JsFields)
    (h : noUndefFields (.cons k v tl) = true) :
    noUndef v = true ∧ noUndefFields tl = true := by
  simpa [noUndefFields, Bool.and_eq_true] using h

lemma noDigitStart_fields_close (tl : JsFields) (hn : noUndefFields tl = true)
    (rest : List Char) :
    noDigitStartB (jsonEmitFields tl true ++ ('}' :: rest)) = true := by
  cases tl with
  | nil => rfl
  | cons k2 v2 tl2 =>
    have hv2 := noUndefFields_cons k2 v2 tl2 hn
    rw [jsonEmitFields_true_comma k2 v2 tl2 (noUndef_ne_undefined v2 hv2.1)]
    rfl

mutual

/-- Parsing the serialization of an `undefined`-free value consumes exactly
that serialization and returns the value (with any non-digit-headed rest
untouched). -/
theorem pVal_emit (v : JsVal) (hu : noUndef v = true) (rest : List Char) (fuel : Nat)
    (hf : (jsonEmit v).length ≤ fuel) (hr : noDigitStartB rest = true) :
    pVal fuel (jsonEmit v ++ rest) = some (v, rest) := by
  cases v with
  | vUndefined => simp [noUndef] at hu
  | vNull =>
    obtain ⟨f, rfl⟩ : ∃ f, fuel = f + 1 := by
      have h4 : (jsonEmit JsVal.vNull).length = 4 := rfl
      exact ⟨fuel - 1, by omega⟩
    rfl
  | vBool b =>
    cases b with
    | true =>
      obtain ⟨f, rfl⟩ : ∃ f, fuel = f + 1 := by
        have h4 : (jsonEmit (JsVal.vBool true)).length = 4 := rfl
        exact ⟨fuel - 1, by omega⟩
      rfl
    | false =>
      obtain ⟨f, rfl⟩ : ∃ f, fuel = f + 1 := by
        have h5 : (jsonEmit (JsVal.vBool false)).length = 5 := rfl
        exact ⟨fuel - 1, by omega⟩
      rfl
  | vNum n =>
    by_cases hn : n < 0
    · have he : jsonEmit (JsVal.vNum n) = '-' :: natToDigits n.natAbs := by
        simp [jsonEmit, emitInt, hn]
      obtain ⟨f, rfl⟩ : ∃ f, fuel = f + 1 := by
        rw [he] at hf
        exact ⟨fuel - 1, by simp at hf; omega⟩
      rw [he]
      show pVal (f + 1) ('-' :: (natToDigits n.natAbs ++ rest)) = _
      have hstep : pVal (f + 1) ('-' :: (natToDigits n.natAbs ++ rest)) =
          (pNatNum (natToDigits n.natAbs ++ rest)).map
            fun nr => (.vNum (-(nr.1 : Int)), nr.2) := rfl
      rw [hstep, pNatNum_emit n.natAbs rest hr]
      have hval : -((n.natAbs : Nat) : Int) = n := by omega
      show some (JsVal.vNum (-((n.natAbs : Nat) : Int)), rest) = some (JsVal.vNum n, rest)
      rw [hval]
    · have he : jsonEmit (JsVal.vNum n) = natToDigits n.toNat := by
        simp [jsonEmit, emitInt, hn]
      obtain ⟨d, ds, hd, hnd, _⟩ := natToDigits_shape n.toNat
      obtain ⟨f, rfl⟩ : ∃ f, fuel = f + 1 := by
        rw [he, hnd] at hf
        exact ⟨fuel - 1, by simp at hf; omega⟩
      rw [he, hnd]
      show pVal (f + 1) (digitChar d :: (ds ++ rest)) = _
      rw [pVal_digitChar f d hd]
      have harg : digitChar d :: (ds ++ rest) = natToDigits n.toNat ++ rest := by
        rw [hnd]
        rfl
      rw [harg, pNatNum_emit n.toNat rest hr]
      have hval : ((n.toNat : Nat) : Int) = n := by omega
      show some (JsVal.vNum ((n.toNat : Nat) : Int), rest) = some (JsVal.vNum n, rest)
      rw [hval]
  | vStr s =>
    obtain ⟨f, rfl⟩ : ∃ f, fuel = f + 1 := by
      refine ⟨fuel - 1, ?_⟩
      simp only [jsonEmit, List.length_cons] at hf
      omega
    have he : jsonEmit (JsVal.vStr s) ++ rest =
        '"' :: (escapeStr s.data ++ ('"' :: rest)) := by
      simp [jsonEmit]
    rw [he]
    have hstep : pVal (f + 1) ('"' :: (escapeStr s.data ++ ('"' :: rest))) =
        (pStr (escapeStr s.data ++ ('"' :: rest))).map
          fun sr => (.vStr ⟨sr.1⟩, sr.2) := rfl
    rw [hstep, pStr_escape s.data rest]
    rfl
  | vArr es =>
    cases es with
    | nil =>
      obtain ⟨f, rfl⟩ : ∃ f, fuel = f + 1 := by
        have h2 : (jsonEmit (JsVal.vArr .nil)).length = 2 := rfl
        exact ⟨fuel - 1, by omega⟩
      rfl
    | cons v tl =>
      have hnu : noUndefItems (JsItems.cons v tl) = true := by
        simpa [noUndef] using hu
      obtain ⟨c, cs, hitems, hc⟩ := jsonEmitItems_cons_shape v tl
      have hlen : (jsonEmit (JsVal.vArr (.cons v tl))).length =
          (jsonEmitItems (JsItems.cons v tl)).length + 2 := by
        simp [jsonEmit]
      obtain ⟨f, rfl⟩ : ∃ f, fuel = f + 1 := ⟨fuel - 1, by omega⟩
      have hinput : jsonEmit (JsVal.vArr (.cons v tl)) ++ rest =
          '[' :: (c :: (cs ++ (']' :: rest))) := by
        simp [jsonEmit, hitems]
      rw [hinput, pVal_bracket f c (cs ++ (']' :: rest)) hc]
      have harg : c :: (cs ++ (']' :: rest)) =
          jsonEmitItems (JsItems.cons v tl) ++ (']' :: rest) := by
        rw [hitems]
        rfl
      rw [harg, pItems_emit (.cons v tl) hnu (by simp) rest f (by omega) hr]
      rfl
  | vObj fs =>
    cases fs with
    | nil =>
      obtain ⟨f, rfl⟩ : ∃ f, fuel = f + 1 := by
        have h2 : (jsonEmit (JsVal.vObj .nil)).length = 2 := rfl
        exact ⟨fuel - 1, by omega⟩
      rfl
    | cons k v tl =>
      have hnf : noUndefFields (JsFields.cons k v tl) = true := by
        simpa [noUndef] using hu
      have hv := noUndefFields_cons k v tl hnf
      have hvne := noUndef_ne_undefined v hv.1
      have hef2 : jsonEmitFields (.cons k v tl) false =
          '"' :: ((escapeStr k.data ++ '"' :: ':' :: jsonEmit v) ++
            jsonEmitFields tl true) := by
        rw [jsonEmitFields_cons_ne k v tl false hvne]
        simp
      have hlen : (jsonEmit (JsVal.vObj (.cons k v tl))).length =
          (jsonEmitFields (JsFields.cons k v tl) false).length + 2 := by
        simp [jsonEmit]
      obtain ⟨f, rfl⟩ : ∃ f, fuel = f + 1 := ⟨fuel - 1, by omega⟩
      have hinput : jsonEmit (JsVal.vObj (.cons k v tl)) ++ rest =
          '{' :: ('"' :: (((escapeStr k.data ++ '"' :: ':' :: jsonEmit v) ++
            jsonEmitFields tl true) ++ ('}' :: rest))) := by
        simp only [jsonEmit]
        rw [hef2]
        simp
      rw [hinput, pVal_brace f '"' _ (by decide)]
      have harg : '"' :: (((escapeStr k.data ++ '"' :: ':' :: jsonEmit v) ++
            jsonEmitFields tl true) ++ ('}' :: rest)) =
          jsonEmitFields (JsFields.cons k v tl) false ++ ('}' :: rest) := by
        rw [hef2]
        rfl
      rw [harg, pFields_emit (.cons k v tl) hnf (by simp) rest f (by omega) hr]
      rfl

/-- Parsing the serialized elements of a nonempty `undefined`-free array,
followed by the closing bracket, returns exactly those elements. -/
theorem pItems_emit (es : JsItems) (hu : noUndefItems es = true) (hne : es ≠ .nil)
    (rest : List Char) (fuel : Nat)
    (hf : (jsonEmitItems es).length + 1 ≤ fuel) (hr : noDigitStartB rest = true) :
    pItems fuel (jsonEmitItems es ++ (']' :: rest)) = some (es, rest) := by
  cases es with
  | nil => exact absurd rfl hne
  | cons v tl =>
    have hv := noUndefItems_cons v tl hu
    obtain ⟨f, rfl⟩ : ∃ f, fuel = f + 1 := ⟨fuel - 1, by omega⟩
    cases tl with
    | nil =>
      have he : jsonEmitItems (JsItems.cons v .nil) = jsonEmit v := rfl
      have hfb : (jsonEmit v).length ≤ f := by
        rw [he] at hf
        omega
      rw [he]
      have hpv := pVal_emit v hv.1 (']' :: rest) f hfb rfl
      simp only [pItems, hpv]
    | cons w tl2 =>
      have he : jsonEmitItems (JsItems.cons v (.cons w tl2)) =
          jsonEmit v ++ ',' :: jsonEmitItems (.cons w tl2) := rfl
      have hlen : (jsonEmitItems (JsItems.cons v (.cons w tl2))).length =
          (jsonEmit v).length + 1 + (jsonEmitItems (JsItems.cons w tl2)).length := by
        rw [he]
        simp
        omega
      have hassoc : jsonEmitItems (JsItems.cons v (.cons w tl2)) ++ (']' :: rest) =
          jsonEmit v ++ (',' :: (jsonEmitItems (.cons w tl2) ++ (']' :: rest))) := by
        rw [he]
        simp
      rw [hassoc]
      have hpv := pVal_emit v hv.1
        (',' :: (jsonEmitItems (.cons w tl2) ++ (']' :: rest))) f (by omega) rfl
      simp only [pItems, hpv]
      rw [pItems_emit (.cons w tl2) hv.2 (by simp) rest f (by omega) hr]
      rfl

/-- Parsing the serialized members of a nonempty `undefined`-free object,
followed by the closing brace, returns exactly those members. -/
theorem pFields_emit (fs : JsFields) (hu : noUndefFields fs = true) (hne : fs ≠ .nil)
    (rest : List Char) (fuel : Nat)
    (hf : (jsonEmitFields fs false).length + 1 ≤ fuel) (hr : noDigitStartB rest = true) :
    pFields fuel (jsonEmitFields fs false ++ ('}' :: rest)) = some (fs, rest) := by
  cases fs with
  | nil => exact absurd rfl hne
  | cons k v tl =>
    have hv := noUndefFields_cons k v tl hu
    have hvne := noUndef_ne_undefined v hv.1
    have hef2 : jsonEmitFields (.cons k v tl) false =
        '"' :: ((escapeStr k.data ++ '"' :: ':' :: jsonEmit v) ++
          jsonEmitFields tl true) := by
      rw [jsonEmitFields_cons_ne k v tl false hvne]
      simp
    obtain ⟨f, rfl⟩ : ∃ f, fuel = f + 1 := ⟨fuel - 1, by omega⟩
    have hinput : jsonEmitFields (JsFields.cons k v tl) false ++ ('}' :: rest) =
        '"' :: (escapeStr k.data ++
          ('"' :: (':' :: (jsonEmit v ++ (jsonEmitFields tl true ++ ('}' :: rest)))))) := by
      rw [hef2]
      simp
    have hlen : (jsonEmitFields (JsFields.cons k v tl) false).length =
        (escapeStr k.data).length + 3 + (jsonEmit v).length +
          (jsonEmitFields tl true).length := by
      rw [hef2]
      simp
      omega
    have hnds : noDigitStartB (jsonEmitFields tl true ++ ('}' :: rest)) = true :=
      noDigitStart_fields_close tl hv.2 rest
    have hpv := pVal_emit v hv.1 (jsonEmitFields tl true ++ ('}' :: rest)) f (by omega) hnds
    rw [hinput]
    simp only [pFields,
      pStr_escape k.data (':' :: (jsonEmit v ++ (jsonEmitFields tl true ++ ('}' :: rest)))),
      hpv]
    cases tl with
    | nil => rfl
    | cons k2 v2 tl2 =>
      have hv2 := noUndefFields_cons k2 v2 tl2 hv.2
      have hcomma : jsonEmitFields (JsFields.cons k2 v2 tl2) true =
          ',' :: jsonEmitFields (JsFields.cons k2 v2 tl2) false :=
        jsonEmitFields_true_comma k2 v2 tl2 (noUndef_ne_undefined v2 hv2.1)
      have hr3 : jsonEmitFields (JsFields.cons k2 v2 tl2) true ++ ('}' :: rest) =
          ',' :: (jsonEmitFields (JsFields.cons k2 v2 tl2) false ++ ('}' :: rest)) := by
        rw [hcomma]
        rfl
      rw [hr3]
      have hrec := pFields_emit (.cons k2 v2 tl2) hv.2 (by simp) rest f
        (by rw [hcomma] at hlen; simp at hlen; omega) hr
      simp only [hrec]
      rfl

end

/-- Round trip: parsing the JSON serialization of an `undefined`-free value
returns exactly that value. -/
theorem jsonParse_jsonStringify (v : JsVal) (h : noUndef v = true) :
    jsonParse (jsonStringify v) = some v := by
  unfold jsonParse jsonStringify
  have hd : (⟨jsonEmit v⟩ : String).data = jsonEmit v := rfl
  rw [hd]
  have hp := pVal_emit v h [] ((jsonEmit v).length + 1) (by omega) rfl
  rw [List.append_nil] at hp
  rw [hp]

/-- Claim C8 counterexample: a structured field value with an explicitly
`undefined` member breaks the round trip.  `{c: undefined}` marshals to the
string of the empty object; parsing it back yields `{}`, which is not
deep-equal to `{c: undefined}` (the own key `c` is lost). -/
theorem claim_C8_counterexample_undefined_member :
    pgValues (.cons "prefs" (.vObj (.cons "c" .vUndefined .nil)) .nil) ["prefs"] =
      [JsVal.vStr "\x7b\x7d"] ∧
    jsonParse "\x7b\x7d" = some (.vObj .nil) ∧
    jsDeepEqual (.vObj .nil) (.vObj (.cons "c" .vUndefined .nil)) = false ∧
    jsDeepEqual (.vObj (.cons "c" .vUndefined .nil)) (.vObj .nil) = false := by
  exact ⟨by decide, by decide, by decide, by decide⟩

/-- Claim C8 (amended): for every structured (non-null, `typeof object`)
field value present in the form data that contains no `undefined` member
anywhere, the marshaled value is its canonical JSON string, and parsing
that string back yields the original value itself — hence a value
deep-equal to it. -/
theorem claim_C8_amended_serialize_roundtrip (data : JsFields) (order : List String)
    (i : Nat) (k : String) (v : JsVal) (hk : order[i]? = some k)
    (hv : lookupF data k = some v) (hnn : v ≠ JsVal.vNull)
    (hobj : jsTypeof v = "object") (hnu : noUndef v = true) :
    (pgValues data order)[i]? = some (JsVal.vStr (jsonStringify v)) ∧
    jsonParse (jsonStringify v) = some v := by
  constructor
  · have hmap : (pgValues data order)[i]? =
        (order[i]?).map fun key => marshalField ((lookupF data key).getD .vUndefined) := by
      simp [pgValues]
    have hmf : marshalField v = JsVal.vStr (jsonStringify v) := by
      cases v <;> simp_all [marshalField, jsTypeof]
    simp [hmap, hk, hv, hmf]
  · exact jsonParse_jsonStringify v hnu

/-- Witness for C8 (amended) at the scenario's structured value
`{c: "blue"}`. -/
theorem claim_C8_amended_serialize_roundtrip_witness :
    (pgValues scenarioData scenarioOrder)[3]? =
      some (JsVal.vStr (jsonStringify (.vObj (.cons "c" (.vStr "blue") .nil)))) ∧
    jsonParse (jsonStringify (.vObj (.cons "c" (.vStr "blue") .nil))) =
      some (.vObj (.cons "c" (.vStr "blue") .nil)) :=
  claim_C8_amended_serialize_roundtrip scenarioData scenarioOrder 3 "prefs"
    (.vObj (.cons "c" (.vStr "blue") .nil)) (by decide) (by decide) (by decide)
    (by decide) (by decide)

end Fqa
